import Mathlib

/-!
Verification development for the SGX Enclave Memory Manager (EMM) core
(intel/sgx-emm): a shallow embedding, in Lean 4, of the bit-array module
(`bit_array.c`), the internal heap free path (`emalloc.c`), and the EMA
list / EDMM driver (`ema.c`), together with theorems about the embedded
code.

Conventions of the embedding:
- C `size_t` values are modelled as `Nat`; the only place where 64-bit
  wraparound is observable for the claims under study is the `ROUND_TO`
  macro, which is therefore modelled with an explicit `% 2 ^ 64`.
- Heap-allocated objects are modelled by value; C functions that may
  fail allocating are parametrised by explicit `Bool` oracles, one per
  `emalloc` call site, telling whether that allocation succeeds.
- Hardware effects (`EACCEPT`, `EMODPE`, out-calls) are modelled as
  event traces returned alongside the functional result.
-/

namespace SgxEmm

/-! ### Constants

Page size and shift are from `ema.h` / the spec (§3, "Page").  The flag
and error constants below come from the public header `sgx_mm.h` and
`<errno.h>`, which are not part of the extracted sources; they are
modelled from the spec §6 "Flag encoding" (32-bit `alloc_flags` mask
with distinct bits for RESERVE / COMMIT_NOW / COMMIT_ON_DEMAND /
SYSTEM / GROWSDOWN, `si_flags` packing page-type bits and R/W/X
permission bits) with the customary Linux numeric values.  Every claim
below depends only on these being distinct single bits in disjoint
fields, not on the particular numbers. -/

def SGX_PAGE_SIZE : Nat := 4096

def SGX_PAGE_SHIFT : Nat := 12

/-- Modelled from the spec: alloc-flag bits of `sgx_mm.h` (not under `src/`). -/
def SGX_EMA_RESERVE : Nat := 0x1

def SGX_EMA_COMMIT_NOW : Nat := 0x2

def SGX_EMA_COMMIT_ON_DEMAND : Nat := 0x4

def SGX_EMA_GROWSDOWN : Nat := 0x200

def SGX_EMA_GROWSUP : Nat := 0x400

/-- Modelled from the spec: page-type bits of `si_flags` (`sgx_mm.h`). -/
def SGX_EMA_PAGE_TYPE_TCS : Nat := 0x10000

def SGX_EMA_PAGE_TYPE_REG : Nat := 0x20000

def SGX_EMA_PAGE_TYPE_TRIM : Nat := 0x40000

def SGX_EMA_PAGE_TYPE_MASK : Nat := 0xFF0000

/-- Modelled from the spec: permission bits of `si_flags` (`sgx_mm.h`). -/
def SGX_EMA_PROT_NONE : Nat := 0x0

def SGX_EMA_PROT_READ : Nat := 0x1

def SGX_EMA_PROT_WRITE : Nat := 0x2

def SGX_EMA_PROT_EXEC : Nat := 0x4

def SGX_EMA_PROT_READ_WRITE : Nat := SGX_EMA_PROT_READ ||| SGX_EMA_PROT_WRITE

def SGX_EMA_PROT_MASK : Nat :=
  SGX_EMA_PROT_READ ||| SGX_EMA_PROT_WRITE ||| SGX_EMA_PROT_EXEC

/-- POSIX error numbers used by the sources (Linux values). -/
def ENOMEM : Nat := 12

def EACCES : Nat := 13

def EFAULT : Nat := 14

def EINVAL : Nat := 22

/-! ### Bit-manipulation helpers -/

/-- The C test `x & (1 << j)` is nonzero exactly when bit `j` of `x` is set. -/
theorem land_one_shiftLeft_ne_zero (x j : Nat) :
    x &&& (1 <<< j) ≠ 0 ↔ x.testBit j := by
  have h : x &&& (1 <<< j) = if x.testBit j then 2 ^ j else 0 := by
    rw [Nat.shiftLeft_eq, one_mul]
    apply Nat.eq_of_testBit_eq
    intro i
    rw [Nat.testBit_and, Nat.testBit_two_pow]
    by_cases hij : j = i
    · subst hij
      by_cases hx : x.testBit j <;> simp [hx, Nat.testBit_two_pow]
    · by_cases hx : x.testBit j <;>
        simp [hx, Nat.testBit_two_pow, hij, Nat.zero_testBit]
  rw [h]
  by_cases hx : x.testBit j <;> simp [hx]

/-! ### `ROUND_TO` and byte counts -/

/-- Modelled from the spec: the `ROUND_TO(x, align)` macro of the missing
header (`(((x) + ((align)-1)) & ~((align)-1))`, evaluated in `size_t`
arithmetic, i.e. modulo `2 ^ 64`); the spec describes its use as rounding
up to a multiple of `align` (§4.1 "backed by ceil(n_bits/8) bytes"). -/
def ROUND_TO (x align : Nat) : Nat :=
  ((x + (align - 1)) % 2 ^ 64) &&& ((2 ^ 64 - 1) - (align - 1))

/-- Number of bytes backing `nbits` bits: `ROUND_TO(nbits, 8) >> 3`
(macro `NUM_OF_BYTES` in `bit_array.c`). -/
def NUM_OF_BYTES (nbits : Nat) : Nat := ROUND_TO nbits 8 >>> 3

theorem land_mask_low3 (n : Nat) (hn : n < 2 ^ 64) :
    n &&& ((2 ^ 64 - 1) - 7) = 8 * (n / 8) := by
  have hmask : ((2 ^ 64 - 1) - 7 : Nat) = (2 ^ 61 - 1) <<< 3 := by
    rw [Nat.shiftLeft_eq]
    norm_num
  have h8 : (8 : Nat) * (n / 8) = (n >>> 3) <<< 3 := by
    rw [Nat.shiftRight_eq_div_pow, Nat.shiftLeft_eq]
    norm_num
    ring
  rw [hmask, h8]
  apply Nat.eq_of_testBit_eq
  intro i
  rw [Nat.testBit_and, Nat.testBit_shiftLeft, Nat.testBit_shiftLeft,
    Nat.testBit_two_pow_sub_one, Nat.testBit_shiftRight]
  by_cases h3 : 3 ≤ i
  · by_cases h61 : i - 3 < 61
    · simp [h3, h61, Nat.add_sub_cancel' h3]
    · have hbig : n.testBit i = false := by
        apply Nat.testBit_eq_false_of_lt
        calc n < 2 ^ 64 := hn
        _ ≤ 2 ^ i := Nat.pow_le_pow_right (by norm_num) (by omega)
      have hbig2 : n.testBit (3 + (i - 3)) = false := by
        rwa [Nat.add_sub_cancel' h3]
      simp [h3, h61, hbig, hbig2]
  · simp [h3]

theorem ROUND_TO_eight (n : Nat) (hn : n + 7 < 2 ^ 64) :
    ROUND_TO n 8 = 8 * ((n + 7) / 8) := by
  unfold ROUND_TO
  rw [Nat.mod_eq_of_lt hn]
  exact land_mask_low3 (n + 7) hn

theorem NUM_OF_BYTES_eq (n : Nat) (hn : n + 7 < 2 ^ 64) :
    NUM_OF_BYTES n = (n + 7) / 8 := by
  unfold NUM_OF_BYTES
  rw [ROUND_TO_eight n hn, Nat.shiftRight_eq_div_pow]
  norm_num

theorem ROUND_TO_eight_ge (n : Nat) (hn : n + 7 < 2 ^ 64) :
    n ≤ ROUND_TO n 8 := by
  rw [ROUND_TO_eight n hn]
  omega

/-- When `num_of_bits + 7` wraps around `2 ^ 64`, `ROUND_TO` comes out
smaller than its argument: this is the overflow guard in `bit_array_new`. -/
theorem small_land_mask (v : Nat) (hv : v < 8) :
    v &&& ((2 ^ 64 - 1) - 7) = 0 := by
  have hmask : ((2 ^ 64 - 1) - 7 : Nat) = (2 ^ 61 - 1) <<< 3 := by
    rw [Nat.shiftLeft_eq]
    norm_num
  rw [hmask]
  apply Nat.eq_of_testBit_eq
  intro i
  rw [Nat.testBit_and, Nat.testBit_shiftLeft, Nat.zero_testBit]
  by_cases h3 : 3 ≤ i
  · have : v.testBit i = false := by
      apply Nat.testBit_eq_false_of_lt
      calc v < 8 := hv
      _ = 2 ^ 3 := by norm_num
      _ ≤ 2 ^ i := Nat.pow_le_pow_right (by norm_num) h3
    simp [this]
  · simp [h3]

theorem ROUND_TO_eight_overflow (n : Nat) (hlo : 2 ^ 64 - 7 ≤ n)
    (hhi : n < 2 ^ 64) : ROUND_TO n 8 < n := by
  unfold ROUND_TO
  have hmod : (n + 7) % 2 ^ 64 = n + 7 - 2 ^ 64 := by
    omega
  rw [hmod, small_land_mask (n + 7 - 2 ^ 64) (by omega)]
  omega

/-! ### Bit array (`bit_array.c`, struct in `bit_array_imp.h`) -/

/-- The `bit_array_` struct: `n_bytes`, `n_bits`, and the backing buffer,
modelled as the list of its byte values. -/
structure bit_array where
  n_bytes : Nat
  n_bits : Nat
  data : List Nat
deriving DecidableEq, Repr

/-- Macro `TEST_BIT(A, p)`: `A[p/8] & (1 << (p%8))`, as a Bool. -/
def bit_array_test (ba : bit_array) (pos : Nat) : Bool :=
  (ba.data.getD (pos / 8) 0) &&& (1 <<< (pos % 8)) != 0

/-- Macro `SET_BIT(A, p)`: `A[p/8] |= 1 << (p%8)`. -/
def bit_array_set (ba : bit_array) (pos : Nat) : bit_array :=
  { ba with
    data := ba.data.set (pos / 8)
      ((ba.data.getD (pos / 8) 0) ||| (1 <<< (pos % 8))) }

/-- Bit lookup in a byte list: bit `m` is bit `m % 8` of byte `m / 8`.
This is the reference reading of the packed representation. -/
def listBit (l : List Nat) (m : Nat) : Bool :=
  (l.getD (m / 8) 0).testBit (m % 8)

theorem bit_array_test_eq_listBit (ba : bit_array) (p : Nat) :
    bit_array_test ba p = listBit ba.data p := by
  unfold bit_array_test listBit
  have h := land_one_shiftLeft_ne_zero (ba.data.getD (p / 8) 0) (p % 8)
  rcases hb : (ba.data.getD (p / 8) 0).testBit (p % 8) with _ | _
  · rw [hb] at h
    have h0 : ba.data.getD (p / 8) 0 &&& 1 <<< (p % 8) = 0 := by
      by_contra hc
      exact absurd (h.mp hc) (by simp)
    rw [bne_eq_false_iff_eq]
    exact h0
  · rw [hb] at h
    have hne := h.mpr rfl
    simpa [bne_iff_ne] using hne

/-! ### Bit-array creation (`bit_array_new`, `bit_array_new_set`,
`bit_array_new_reset`)

`okBa` and `okData` are the outcomes of the two `emalloc` calls (for the
`bit_array` struct and for the data buffer).  The C buffer returned by
`bit_array_new` is uninitialized; we model its bytes as zeros — every
use in the sources overwrites the buffer before reading it. -/

def bit_array_new (okBa okData : Bool) (num_of_bits : Nat) : Option bit_array :=
  if num_of_bits = 0 then none
  else if ROUND_TO num_of_bits 8 < num_of_bits then none
  else if !okBa then none
  else if !okData then none
  else some
    { n_bytes := NUM_OF_BYTES num_of_bits
      n_bits := num_of_bits
      data := List.replicate (NUM_OF_BYTES num_of_bits) 0 }

/-- `bit_array_new` then `memset(data, 0xFF, n_bytes)`. -/
def bit_array_new_set (okBa okData : Bool) (num_of_bits : Nat) :
    Option bit_array :=
  (bit_array_new okBa okData num_of_bits).map fun ba =>
    { ba with data := List.replicate ba.n_bytes 0xFF }

/-- `bit_array_new` then `memset(data, 0, n_bytes)`. -/
def bit_array_new_reset (okBa okData : Bool) (num_of_bits : Nat) :
    Option bit_array :=
  (bit_array_new okBa okData num_of_bits).map fun ba =>
    { ba with data := List.replicate ba.n_bytes 0 }

/-- `bit_array_set_all`: `memset(data, 0xFF, n_bytes)`. -/
def bit_array_set_all (ba : bit_array) : bit_array :=
  { ba with data := List.replicate ba.n_bytes 0xFF }

/-- `bit_array_reset_all`: `memset(data, 0, n_bytes)`. -/
def bit_array_reset_all (ba : bit_array) : bit_array :=
  { ba with data := List.replicate ba.n_bytes 0 }

/-! ### Bit-array split (`bit_array_split`)

The in-place shifting loop of `bit_array_split` writes the bytes of the
new higher array at indices `0, 1, 2, ...` in order, one write per
loop/branch arm; we model it as the list of bytes it writes.  `src` is
the original buffer; `bit_index` is `pos % 8`; the recursion parameter
is the loop variable `bits_remain`, which the `while` decrements by 8;
`curr_byte` starts at `byte_index = pos / 8`.  The byte values use
`uint8` semantics: `u2 = (uint8_t)(b << (8 - bit_index))` is modelled
by `% 256`.  (When `bit_index = 0`, the C expression reads one byte
beyond the last source byte but shifts it away entirely — `getD`'s
default plays that role here and is likewise masked to zero.) -/

def split_hi_bytes (src : List Nat) (bit_index : Nat) :
    Nat → Nat → List Nat
  | bits_remain, curr_byte =>
    if 8 ≤ bits_remain then
      ((src.getD curr_byte 0 >>> bit_index) |||
        (src.getD (curr_byte + 1) 0 <<< (8 - bit_index)) % 256)
        :: split_hi_bytes src bit_index (bits_remain - 8) (curr_byte + 1)
    else if 8 - bit_index < bits_remain then
      [(src.getD curr_byte 0 >>> bit_index) |||
        (src.getD (curr_byte + 1) 0 <<< (8 - bit_index)) % 256]
    else if 0 < bits_remain then
      [src.getD curr_byte 0 >>> bit_index]
    else []
  termination_by br _ => br
  decreasing_by omega

/-- The copy loop building the new lower buffer: bytes `0 ≤ i < byte_index`
are copied; if `bit_index > 0` the boundary byte is masked to its low
`bit_index` bits. -/
def split_lo_bytes (src : List Nat) (byte_index bit_index : Nat) : List Nat :=
  (List.range byte_index).map (fun i => src.getD i 0) ++
    (if 0 < bit_index then
      [src.getD byte_index 0 &&& ((1 <<< bit_index) - 1)]
    else [])

/-- The function `bit_array_split(ba, pos, &new_lower, &new_higher)`.
`ok1` is the `emalloc(l_bytes)` outcome for the new lower buffer, and
`ok2`/`ok3` are the two allocation outcomes inside the nested
`bit_array_new(r_bits)`.  The `.error` results are the `ENOMEM`
returns; an `.ok` result carries the `*new_lower`/`*new_higher` pair.
The final `bit_array_reattach(ba, l_bits, data)` is the construction of
the returned lower array from the freshly written buffer. -/
def bit_array_split (ok1 ok2 ok3 : Bool) (ba : bit_array) (pos : Nat) :
    Except Nat (Option bit_array × Option bit_array) :=
  if pos = 0 then .ok (none, some ba)
  else if ba.n_bits ≤ pos then .ok (some ba, none)
  else if !ok1 then .error ENOMEM
  else
    match bit_array_new ok2 ok3 (ba.n_bits - ((pos / 8) <<< 3 + pos % 8)) with
    | none => .error ENOMEM
    | some ba2 =>
      .ok
        (some { n_bytes := NUM_OF_BYTES ((pos / 8) <<< 3 + pos % 8)
                n_bits := (pos / 8) <<< 3 + pos % 8
                data := split_lo_bytes ba.data (pos / 8) (pos % 8) },
          some { ba2 with
            data := split_hi_bytes ba.data (pos % 8)
              (ba.n_bits - ((pos / 8) <<< 3 + pos % 8)) (pos / 8) })

/-- C10: `bit_array_new(0)` returns NULL without attempting any allocation
(the result is `none` for every outcome of the two `emalloc` calls, both
of which come after the zero test in the source), `bit_array_new` also
returns NULL when rounding `num_of_bits` up to a multiple of 8 overflows
64-bit arithmetic, `bit_array_new_set` and `bit_array_new_reset` return
NULL for zero bits, and no bit array tracking zero bits is ever created
by any of the three constructors. -/
theorem c10_bit_array_new_zero_and_overflow :
    (∀ okBa okData, bit_array_new okBa okData 0 = none) ∧
    (∀ n, 2 ^ 64 - 7 ≤ n → n < 2 ^ 64 →
      ∀ okBa okData, bit_array_new okBa okData n = none) ∧
    (∀ okBa okData, bit_array_new_set okBa okData 0 = none ∧
      bit_array_new_reset okBa okData 0 = none) ∧
    (∀ okBa okData n ba,
      bit_array_new okBa okData n = some ba → 0 < ba.n_bits) ∧
    (∀ okBa okData n ba,
      bit_array_new_set okBa okData n = some ba → 0 < ba.n_bits) ∧
    (∀ okBa okData n ba,
      bit_array_new_reset okBa okData n = some ba → 0 < ba.n_bits) := by
  have hzero : ∀ okBa okData, bit_array_new okBa okData 0 = none := by
    intro okBa okData
    simp [bit_array_new]
  have hpos : ∀ okBa okData n ba,
      bit_array_new okBa okData n = some ba → 0 < ba.n_bits := by
    intro okBa okData n ba h
    unfold bit_array_new at h
    split at h
    · exact absurd h (by simp)
    · split at h
      · exact absurd h (by simp)
      · split at h
        · exact absurd h (by simp)
        · split at h
          · exact absurd h (by simp)
          · rename_i hn0 _ _ _
            cases h
            simpa using Nat.pos_of_ne_zero hn0
  refine ⟨hzero, ?_, ?_, hpos, ?_, ?_⟩
  · intro n hlo hhi okBa okData
    unfold bit_array_new
    rw [if_neg (by omega), if_pos (ROUND_TO_eight_overflow n hlo hhi)]
  · intro okBa okData
    constructor <;> simp [bit_array_new_set, bit_array_new_reset, hzero]
  · intro okBa okData n ba h
    unfold bit_array_new_set at h
    rcases hm : bit_array_new okBa okData n with _ | ba0
    · rw [hm] at h
      exact absurd h (by simp)
    · rw [hm] at h
      simp only [Option.map_some'] at h
      cases h
      exact hpos okBa okData n ba0 hm
  · intro okBa okData n ba h
    unfold bit_array_new_reset at h
    rcases hm : bit_array_new okBa okData n with _ | ba0
    · rw [hm] at h
      exact absurd h (by simp)
    · rw [hm] at h
      simp only [Option.map_some'] at h
      cases h
      exact hpos okBa okData n ba0 hm

/-- Witness for C10: the overflow branch at the concrete input
`num_of_bits = 2 ^ 64 - 1` (where `n + 7` wraps around `size_t`),
with both allocations available. -/
theorem c10_witness :
    bit_array_new true true (2 ^ 64 - 1) = none :=
  c10_bit_array_new_zero_and_overflow.2.1 (2 ^ 64 - 1)
    (by norm_num) (by norm_num) true true

/-! ### Correctness of the split copy loops -/

theorem getD_lt_256 {l : List Nat} (hb : ∀ x ∈ l, x < 256) (i : Nat) :
    l.getD i 0 < 256 := by
  by_cases h : i < l.length
  · rw [List.getD_eq_getElem _ _ h]
    exact hb _ (List.getElem_mem h)
  · rw [List.getD_eq_default _ _ (by omega)]
    norm_num

/-- Bit `r` of byte `c` of a packed buffer is bit `8 * c + r` of the buffer. -/
theorem listBit_decompose (src : List Nat) (c r : Nat) (hr : r < 8) :
    listBit src (8 * c + r) = (src.getD c 0).testBit r := by
  unfold listBit
  congr 1
  · congr 1
    omega
  · omega

/-- One two-byte window of the shifting loop: bit `j` of
`(s1 >> b) | (uint8_t)(s2 << (8 - b))` is bit `b + j` of `s1` when it
falls inside `s1`, and the corresponding low bit of `s2` otherwise. -/
theorem compose_testBit (s1 s2 b j : Nat) (hs1 : s1 < 256) (hb8 : b < 8)
    (hj : j < 8) :
    ((s1 >>> b) ||| (s2 <<< (8 - b)) % 256).testBit j =
      if j < 8 - b then s1.testBit (b + j) else s2.testBit (j - (8 - b)) := by
  have h256 : (256 : Nat) = 2 ^ 8 := by norm_num
  rw [Nat.testBit_or, Nat.testBit_shiftRight, h256, Nat.testBit_mod_two_pow,
    Nat.testBit_shiftLeft]
  by_cases hlt : j < 8 - b
  · have h2 : ¬ (8 - b ≤ j) := by omega
    simp [hlt, h2, hj]
  · have h1 : s1.testBit (b + j) = false := by
      apply Nat.testBit_eq_false_of_lt
      calc s1 < 256 := hs1
      _ = 2 ^ 8 := h256
      _ ≤ 2 ^ (b + j) := Nat.pow_le_pow_right (by norm_num) (by omega)
    simp [hlt, (by omega : 8 - b ≤ j), hj, h1]

/-- Every byte the shifting loop writes reads back, bit for bit, the
source bits starting at offset `curr_byte * 8 + bit_index`. -/
theorem split_hi_bytes_spec (src : List Nat) (bit_index : Nat)
    (hsrc : ∀ x ∈ src, x < 256) (hbi : bit_index < 8) :
    ∀ k br cb j, j < 8 → 8 * k + j < br →
      ((split_hi_bytes src bit_index br cb).getD k 0).testBit j =
        listBit src (cb * 8 + bit_index + (8 * k + j)) := by
  intro k
  induction k with
  | zero =>
    intro br cb j hj hbr
    unfold split_hi_bytes
    by_cases h8 : 8 ≤ br
    · rw [if_pos h8]
      simp only [List.getD_cons_zero]
      rw [compose_testBit _ _ _ _ (getD_lt_256 hsrc cb) hbi hj]
      by_cases hlt : j < 8 - bit_index
      · rw [if_pos hlt, (by omega : cb * 8 + bit_index + (8 * 0 + j) =
          8 * cb + (bit_index + j)), listBit_decompose src cb _ (by omega)]
      · rw [if_neg hlt, (by omega : cb * 8 + bit_index + (8 * 0 + j) =
          8 * (cb + 1) + (j - (8 - bit_index))),
          listBit_decompose src (cb + 1) _ (by omega)]
    · rw [if_neg h8]
      by_cases hmid : 8 - bit_index < br
      · rw [if_pos hmid]
        simp only [List.getD_cons_zero]
        rw [compose_testBit _ _ _ _ (getD_lt_256 hsrc cb) hbi hj]
        by_cases hlt : j < 8 - bit_index
        · rw [if_pos hlt, (by omega : cb * 8 + bit_index + (8 * 0 + j) =
            8 * cb + (bit_index + j)), listBit_decompose src cb _ (by omega)]
        · rw [if_neg hlt, (by omega : cb * 8 + bit_index + (8 * 0 + j) =
            8 * (cb + 1) + (j - (8 - bit_index))),
            listBit_decompose src (cb + 1) _ (by omega)]
      · rw [if_neg hmid, if_pos (by omega : 0 < br)]
        simp only [List.getD_cons_zero]
        rw [Nat.testBit_shiftRight,
          (by omega : cb * 8 + bit_index + (8 * 0 + j) =
            8 * cb + (bit_index + j)),
          listBit_decompose src cb _ (by omega)]
  | succ k ih =>
    intro br cb j hj hbr
    unfold split_hi_bytes
    rw [if_pos (by omega : 8 ≤ br)]
    simp only [List.getD_cons_succ]
    rw [ih (br - 8) (cb + 1) j hj (by omega)]
    congr 1
    omega

/-- Every bit of the new lower buffer below the split point reads back
the corresponding source bit. -/
theorem split_lo_bytes_spec (src : List Nat) (byte_index bit_index : Nat)
    (hbi : bit_index < 8) :
    ∀ i, i < byte_index * 8 + bit_index →
      listBit (split_lo_bytes src byte_index bit_index) i = listBit src i := by
  intro i hi
  unfold split_lo_bytes listBit
  have hlen : ((List.range byte_index).map (fun k => src.getD k 0)).length =
      byte_index := by simp
  by_cases hlo : i / 8 < byte_index
  · rw [List.getD_append _ _ _ _ (by omega)]
    congr 1
    rw [List.getD_eq_getElem _ _ (by omega)]
    simp
  · have hdiv : i / 8 = byte_index := by omega
    have hmod : i % 8 < bit_index := by omega
    have hbipos : 0 < bit_index := by omega
    rw [List.getD_append_right _ _ _ _ (by omega), if_pos hbipos]
    rw [hlen, hdiv, Nat.sub_self]
    simp only [List.getD_cons_zero]
    rw [Nat.shiftLeft_eq, one_mul,
      Nat.testBit_and, Nat.testBit_two_pow_sub_one]
    simp [hmod]

theorem bit_array_new_success (n : Nat) (hn0 : 0 < n) (hn : n + 7 < 2 ^ 64) :
    bit_array_new true true n = some
      { n_bytes := NUM_OF_BYTES n, n_bits := n
        data := List.replicate (NUM_OF_BYTES n) 0 } := by
  unfold bit_array_new
  rw [if_neg (by omega), if_neg (Nat.not_lt.mpr (ROUND_TO_eight_ge n hn))]
  simp

/-- C5: `bit_array_split(ba, pos)` with `pos == 0` returns `(NULL, ba)`
unchanged; with `pos ≥ n_bits` it returns `(ba, NULL)` unchanged;
otherwise, on success (both internal allocations available), it yields
a lower array holding exactly bits `[0, pos)` of the original
(`n_bits = pos`) and a newly allocated higher array holding exactly
bits `[pos, n_bits)` (`n_bits = old n_bits − pos`): for every
`i < old n_bits − pos`, `higher.test(i)` equals the original
`test(pos + i)`.  Hypotheses: the buffer holds byte values (< 256), the
array tracks at least one bit (cf. C10) and fewer than `2^32` bits (no
`size_t` overflow). -/
theorem c5_bit_array_split_spec (ba : bit_array) (pos : Nat)
    (ok1 ok2 ok3 : Bool) (hdata : ∀ x ∈ ba.data, x < 256)
    (hpos0 : 0 < ba.n_bits) (hsz : ba.n_bits < 2 ^ 32) :
    (bit_array_split ok1 ok2 ok3 ba 0 = .ok (none, some ba)) ∧
    (ba.n_bits ≤ pos →
      bit_array_split ok1 ok2 ok3 ba pos = .ok (some ba, none)) ∧
    (0 < pos → pos < ba.n_bits → ok1 = true → ok2 = true → ok3 = true →
      ∃ lo hi, bit_array_split ok1 ok2 ok3 ba pos = .ok (some lo, some hi) ∧
        lo.n_bits = pos ∧ hi.n_bits = ba.n_bits - pos ∧
        (∀ i, i < pos → bit_array_test lo i = bit_array_test ba i) ∧
        (∀ i, i < ba.n_bits - pos →
          bit_array_test hi i = bit_array_test ba (pos + i))) := by
  have hlbits : (pos / 8) <<< 3 + pos % 8 = pos := by
    rw [Nat.shiftLeft_eq]
    norm_num
    omega
  refine ⟨by simp [bit_array_split], ?_, ?_⟩
  · intro hge
    unfold bit_array_split
    rw [if_neg (by omega), if_pos hge]
  · intro hp0 hplt hok1 hok2 hok3
    subst hok1
    subst hok2
    subst hok3
    have hnew := bit_array_new_success (ba.n_bits - ((pos / 8) <<< 3 + pos % 8))
      (by rw [hlbits]; omega) (by rw [hlbits]; omega)
    unfold bit_array_split
    rw [if_neg (by omega), if_neg (by omega), if_neg (by simp), hnew]
    refine ⟨_, _, rfl, hlbits, ?_, ?_, ?_⟩
    · show ba.n_bits - ((pos / 8) <<< 3 + pos % 8) = ba.n_bits - pos
      rw [hlbits]
    · intro i hilt
      rw [bit_array_test_eq_listBit, bit_array_test_eq_listBit]
      exact split_lo_bytes_spec ba.data (pos / 8) (pos % 8) (by omega) i
        (by omega)
    · intro i hilt
      rw [bit_array_test_eq_listBit, bit_array_test_eq_listBit]
      have hL : listBit
          (split_hi_bytes ba.data (pos % 8)
            (ba.n_bits - ((pos / 8) <<< 3 + pos % 8)) (pos / 8)) i =
          listBit ba.data ((pos / 8) * 8 + pos % 8 + (8 * (i / 8) + i % 8)) :=
        split_hi_bytes_spec ba.data (pos % 8) hdata (by omega) (i / 8)
          (ba.n_bits - ((pos / 8) <<< 3 + pos % 8)) (pos / 8) (i % 8)
          (by omega) (by rw [hlbits]; omega)
      rw [hL]
      congr 1
      omega

/-- Witness for C5: splitting the 5-bit array `10110₂` (bits 1, 2, 4 set)
at position 2, with all allocations available. -/
theorem c5_witness :
    ∃ lo hi,
      bit_array_split true true true ⟨1, 5, [22]⟩ 2 = .ok (some lo, some hi) ∧
        lo.n_bits = 2 ∧ hi.n_bits = (5 : Nat) - 2 ∧
        (∀ i, i < 2 →
          bit_array_test lo i = bit_array_test ⟨1, 5, [22]⟩ i) ∧
        (∀ i, i < (5 : Nat) - 2 →
          bit_array_test hi i = bit_array_test ⟨1, 5, [22]⟩ (2 + i)) :=
  (c5_bit_array_split_spec ⟨1, 5, [22]⟩ 2 true true true (by decide)
    (by decide) (by norm_num)).2.2 (by decide) (by decide) rfl rfl rfl

/-! ### EMA nodes (`struct ema_t_`, `ema_imp.h`)

An EMA carries a page-aligned range, allocation flags, `si_flags` and
an optional per-page EACCEPT bitmap.  The `handler`/`priv` fields and
the intrusive `next`/`prev` pointers are not modelled: no claim under
study depends on the fault handler, and the doubly-linked list of a
root is modelled as the `List` of its nodes in link order. -/

structure ema_t where
  start_addr : Nat
  size : Nat
  alloc_flags : Nat
  si_flags : Nat
  eaccept_map : Option bit_array
deriving DecidableEq, Repr

def ema_end (e : ema_t) : Nat := e.start_addr + e.size

/-! ### Commit precheck (`ema_can_commit`)

The precheck walks the covered segment `[first, last)` of the list —
modelled as the `List ema_t` of those nodes — accumulating `prev_end`,
which starts at `first->start_addr`.  It returns `EINVAL` on a gap,
`EACCES` when a node is not writable, not of REG page type, or carries
the RESERVE flag, and `EINVAL` when the walked nodes stop short of
`end`.  The unused `start` parameter of the C function is kept. -/

def ema_can_commit_go (e : Nat) : List ema_t → Nat → Nat
  | [], prev_end => if prev_end < e then EINVAL else 0
  | curr :: rest, prev_end =>
    if prev_end ≠ curr.start_addr then EINVAL
    else if curr.si_flags &&& SGX_EMA_PROT_WRITE = 0 then EACCES
    else if curr.si_flags &&& SGX_EMA_PAGE_TYPE_REG = 0 then EACCES
    else if curr.alloc_flags &&& SGX_EMA_RESERVE ≠ 0 then EACCES
    else ema_can_commit_go e rest (curr.start_addr + curr.size)

def ema_can_commit (emas : List ema_t) (s e : Nat) : Nat :=
  match emas with
  | [] => if 0 < e then EINVAL else 0
  | curr :: _ => ema_can_commit_go e emas curr.start_addr

/-! ### Commit driver (`ema_do_commit`, `ema_do_commit_loop`)

`ema_do_commit` iterates the pages of
`[max(start, node start), min(end, node end))`; the recursion parameter
of `ema_do_commit_go` is the number of remaining loop iterations,
`⌈(real_end − addr) / PAGE⌉`.  `eaccept` gives `do_eaccept`'s return
value at each address; each issued EACCEPT is recorded in the returned
trace, and a nonzero return aborts the walk with that value.  The
result is `(ret, final bitmap, trace)`. -/

def ema_do_commit_go (eaccept : Nat → Nat) (node_start : Nat) :
    bit_array → Nat → Nat → Nat × bit_array × List Nat
  | m, _, 0 => (0, m, [])
  | m, addr, n + 1 =>
    if !bit_array_test m ((addr - node_start) >>> SGX_PAGE_SHIFT) then
      if eaccept addr ≠ 0 then (eaccept addr, m, [addr])
      else
        let m' := bit_array_set m ((addr - node_start) >>> SGX_PAGE_SHIFT)
        let r := ema_do_commit_go eaccept node_start m'
          (addr + SGX_PAGE_SIZE) n
        (r.1, r.2.1, addr :: r.2.2)
    else ema_do_commit_go eaccept node_start m (addr + SGX_PAGE_SIZE) n

/-- The body of `ema_do_commit`.  The `assert(node->eaccept_map)` (only
RESERVE regions lack a bitmap; the build defines `NDEBUG`) is modelled
as an `EFAULT` result — unreachable from the commit loop under the
claims' hypotheses, which always supply a bitmap. -/
def ema_do_commit (eaccept : Nat → Nat) (node : ema_t) (s e : Nat) :
    Nat × ema_t × List Nat :=
  match node.eaccept_map with
  | none => (EFAULT, node, [])
  | some m =>
    let rs := max s node.start_addr
    let re := min e (node.start_addr + node.size)
    let r := ema_do_commit_go eaccept node.start_addr m rs
      ((re - rs + (SGX_PAGE_SIZE - 1)) / SGX_PAGE_SIZE)
    (r.1, { node with eaccept_map := some r.2.1 }, r.2.2)

def ema_do_commit_nodes (eaccept : Nat → Nat) (s e : Nat) :
    List ema_t → Nat × List ema_t × List Nat
  | [] => (0, [], [])
  | curr :: rest =>
    match ema_do_commit eaccept curr s e with
    | (r, curr', tr) =>
      if r ≠ 0 then (r, curr' :: rest, tr)
      else
        match ema_do_commit_nodes eaccept s e rest with
        | (r2, rest', tr2) => (r2, curr' :: rest', tr ++ tr2)

/-- `ema_do_commit_loop`: run the precheck; on error return it with the
segment untouched and no EACCEPT issued, otherwise drive
`ema_do_commit` across the covered nodes. -/
def ema_do_commit_loop (eaccept : Nat → Nat) (emas : List ema_t)
    (s e : Nat) : Nat × List ema_t × List Nat :=
  if ema_can_commit emas s e ≠ 0 then (ema_can_commit emas s e, emas, [])
  else ema_do_commit_nodes eaccept s e emas

/-! ### C4 — commit over a RESERVE EMA -/

/-- A gap-free RESERVE EMA, writable and of REG type, so that the
RESERVE test itself is the check that fires in the precheck. -/
def c4_ema : ema_t :=
  { start_addr := 0x1000
    size := 0x1000
    alloc_flags := SGX_EMA_RESERVE
    si_flags := SGX_EMA_PAGE_TYPE_REG ||| SGX_EMA_PROT_READ_WRITE
    eaccept_map := none }

/-- Counterexample for C4: committing `[0x1000, 0x2000)` over a single
covering RESERVE EMA is rejected by `ema_can_commit` with `EACCES`
(13), not `EINVAL` (22), so the claim's error code is wrong at this
input (the precheck still rejects before any mutation). -/
theorem c4_counterexample :
    ema_do_commit_loop (fun _ => 0) [c4_ema] 0x1000 0x2000 =
      (EACCES, [c4_ema], []) ∧ EACCES ≠ EINVAL := by
  constructor
  · decide
  · decide

theorem ema_can_commit_go_reserve (e : Nat) :
    ∀ (emas : List ema_t) (pe : Nat),
      (∀ c, emas.head? = some c → pe = c.start_addr) →
      emas.Chain' (fun a b => a.start_addr + a.size = b.start_addr) →
      (∃ m ∈ emas, m.alloc_flags &&& SGX_EMA_RESERVE ≠ 0) →
      ema_can_commit_go e emas pe = EACCES := by
  intro emas
  induction emas with
  | nil =>
    intro pe _ _ hex
    simp at hex
  | cons c rest ih =>
    intro pe hpe hchain hex
    have hpec : pe = c.start_addr := hpe c rfl
    unfold ema_can_commit_go
    rw [if_neg (by omega)]
    by_cases hw : c.si_flags &&& SGX_EMA_PROT_WRITE = 0
    · rw [if_pos hw]
    · rw [if_neg hw]
      by_cases hr : c.si_flags &&& SGX_EMA_PAGE_TYPE_REG = 0
      · rw [if_pos hr]
      · rw [if_neg hr]
        by_cases hres : c.alloc_flags &&& SGX_EMA_RESERVE ≠ 0
        · rw [if_pos hres]
        · rw [if_neg hres]
          rcases hex with ⟨m, hm, hmres⟩
          rcases List.mem_cons.mp hm with hmc | hmrest
          · exact absurd (hmc ▸ hmres) hres
          · refine ih (c.start_addr + c.size) ?_ (List.Chain'.tail hchain)
              ⟨m, hmrest, hmres⟩
            intro c2 hc2
            rcases rest with _ | ⟨c3, rest'⟩
            · simp at hc2
            · have := (List.chain'_cons.mp hchain).1
              simp only [List.head?_cons, Option.some_inj] at hc2
              rw [hc2] at this
              omega

/-- C4, amended: a commit request whose covered EMA segment is gap-free
and contains a RESERVE EMA is rejected by the `ema_can_commit` precheck,
run by `ema_do_commit_loop` before any mutation, with error `EACCES`
(permission violation), not `EINVAL`; the EMA segment is returned
unchanged and no EACCEPT is issued. -/
theorem c4_commit_on_reserve_eacces (eaccept : Nat → Nat)
    (emas : List ema_t) (s e : Nat)
    (hchain : emas.Chain' (fun a b => a.start_addr + a.size = b.start_addr))
    (hres : ∃ m ∈ emas, m.alloc_flags &&& SGX_EMA_RESERVE ≠ 0) :
    ema_do_commit_loop eaccept emas s e = (EACCES, emas, []) := by
  have hcan : ema_can_commit emas s e = EACCES := by
    rcases emas with _ | ⟨c, rest⟩
    · simp at hres
    · unfold ema_can_commit
      exact ema_can_commit_go_reserve e (c :: rest) c.start_addr
        (by intro c2 hc2; simp at hc2; rw [hc2]) hchain hres
  unfold ema_do_commit_loop
  rw [hcan]
  simp [EACCES]

/-- Witness for C4's amended theorem at the concrete RESERVE EMA. -/
theorem c4_witness :
    ema_do_commit_loop (fun _ => 1) [c4_ema] 0x1000 0x2000 =
      (EACCES, [c4_ema], []) :=
  c4_commit_on_reserve_eacces (fun _ => 1) [c4_ema] 0x1000 0x2000
    (by simp) ⟨c4_ema, by simp, by decide⟩

/-! ### C7 — commit is idempotent on fully committed ranges -/

/-- When every page the walk will visit already has its bit set, the
per-page loop of `ema_do_commit` skips every page: it returns 0, issues
no EACCEPT, and leaves the bitmap untouched. -/
theorem ema_do_commit_go_all_set (eaccept : Nat → Nat) (ns : Nat) :
    ∀ (n : Nat) (m : bit_array) (addr : Nat),
      (∀ k, k < n →
        bit_array_test m ((addr + 4096 * k - ns) >>> SGX_PAGE_SHIFT) = true) →
      ema_do_commit_go eaccept ns m addr n = (0, m, []) := by
  intro n
  induction n with
  | zero => intro m addr _; rfl
  | succ k ih =>
    intro m addr h
    have h0 : bit_array_test m ((addr - ns) >>> SGX_PAGE_SHIFT) = true := by
      have h00 := h 0 (by omega)
      simpa using h00
    unfold ema_do_commit_go
    rw [h0, if_neg (by simp)]
    apply ih
    intro j hj
    have hgen := h (j + 1) (by omega)
    have harith : addr + 4096 * (j + 1) = addr + SGX_PAGE_SIZE + 4096 * j := by
      have hP : SGX_PAGE_SIZE = 4096 := rfl
      rw [hP]
      ring
    rw [harith] at hgen
    exact hgen

theorem ema_with_same_map (node : ema_t) (m : bit_array)
    (h : node.eaccept_map = some m) :
    { node with eaccept_map := some m } = node := by
  cases node
  simp only [ema_t.mk.injEq, and_true, true_and]
  simp only [] at h
  rw [h]

/-- A single `ema_do_commit` over a node whose covered pages are all
committed is a no-op returning 0 with an empty EACCEPT trace. -/
theorem ema_do_commit_all_set (eaccept : Nat → Nat) (node : ema_t)
    (s e : Nat) (m : bit_array) (hm : node.eaccept_map = some m)
    (hbits : ∀ a, max s node.start_addr ≤ a →
      a < min e (node.start_addr + node.size) →
      bit_array_test m ((a - node.start_addr) >>> SGX_PAGE_SHIFT) = true) :
    ema_do_commit eaccept node s e = (0, node, []) := by
  have hlin : ∀ RS RE K : Nat,
      K < (RE - RS + (SGX_PAGE_SIZE - 1)) / SGX_PAGE_SIZE →
      RS + 4096 * K < RE := by
    intro RS RE K
    have hP : SGX_PAGE_SIZE = 4096 := rfl
    rw [hP]
    omega
  have hgo := ema_do_commit_go_all_set eaccept node.start_addr
    ((min e (node.start_addr + node.size) - max s node.start_addr +
      (SGX_PAGE_SIZE - 1)) / SGX_PAGE_SIZE) m (max s node.start_addr) ?_
  · unfold ema_do_commit
    rw [hm]
    dsimp only
    rw [hgo]
    dsimp only
    rw [ema_with_same_map node m hm]
  · intro k hk
    apply hbits (max s node.start_addr + 4096 * k) (Nat.le_add_right _ _)
    exact hlin _ _ k hk

/-- C7: commit is idempotent.  If the covered segment passes the commit
precheck and every page of the requested range inside each node's
bitmap is already 1, then `ema_do_commit_loop` (driving `ema_do_commit`
over every node) returns 0, issues no EACCEPT, and leaves every bitmap
bit — indeed the whole segment — unchanged. -/
theorem c7_commit_idempotent (eaccept : Nat → Nat) (emas : List ema_t)
    (s e : Nat) (hpre : ema_can_commit emas s e = 0)
    (hbits : ∀ node ∈ emas, ∃ m, node.eaccept_map = some m ∧
      ∀ a, max s node.start_addr ≤ a →
        a < min e (node.start_addr + node.size) →
        bit_array_test m ((a - node.start_addr) >>> SGX_PAGE_SHIFT) = true) :
    ema_do_commit_loop eaccept emas s e = (0, emas, []) := by
  have hnodes : ∀ l, (∀ node ∈ l, ∃ m, node.eaccept_map = some m ∧
      ∀ a, max s node.start_addr ≤ a →
        a < min e (node.start_addr + node.size) →
        bit_array_test m ((a - node.start_addr) >>> SGX_PAGE_SHIFT) = true) →
      ema_do_commit_nodes eaccept s e l = (0, l, []) := by
    intro l
    induction l with
    | nil => intro _; rfl
    | cons c rest ih =>
      intro hl
      rcases hl c (List.mem_cons_self c rest) with ⟨m, hm, hb⟩
      unfold ema_do_commit_nodes
      rw [ema_do_commit_all_set eaccept c s e m hm hb]
      dsimp only
      rw [if_neg (by simp), ih (fun node hn => hl node
        (List.mem_cons_of_mem c hn))]
      simp
  unfold ema_do_commit_loop
  rw [hpre, if_neg (by simp)]
  exact hnodes emas hbits

/-- A one-page committed EMA used as the C7 witness input. -/
def c7_ema : ema_t :=
  { start_addr := 0x1000
    size := 0x1000
    alloc_flags := SGX_EMA_COMMIT_ON_DEMAND
    si_flags := SGX_EMA_PAGE_TYPE_REG ||| SGX_EMA_PROT_READ_WRITE
    eaccept_map := some ⟨1, 1, [1]⟩ }

/-- Witness for C7: recommitting the already committed page at `0x1000`
(bitmap `[1]`, bit 0 set) is a no-op even though `do_eaccept` would
fail (the oracle returns 1 everywhere): no EACCEPT is ever issued. -/
theorem c7_witness :
    ema_do_commit_loop (fun _ => 1) [c7_ema] 0x1000 0x2000 =
      (0, [c7_ema], []) := by
  apply c7_commit_idempotent (fun _ => 1) [c7_ema] 0x1000 0x2000 (by decide)
  intro node hn
  simp only [List.mem_singleton] at hn
  subst hn
  refine ⟨⟨1, 1, [1]⟩, rfl, ?_⟩
  intro a ha1 ha2
  simp only [c7_ema] at ha1 ha2
  have hlt : a - 0x1000 < 4096 := by omega
  have hpos : (a - 0x1000) >>> SGX_PAGE_SHIFT = 0 := by
    rw [Nat.shiftRight_eq_div_pow]
    apply Nat.div_eq_of_lt
    have hS : (2 : Nat) ^ SGX_PAGE_SHIFT = 4096 := rfl
    rw [hS]
    omega
  show bit_array_test ⟨1, 1, [1]⟩ ((a - c7_ema.start_addr) >>> SGX_PAGE_SHIFT)
    = true
  have : a - c7_ema.start_addr = a - 0x1000 := rfl
  rw [this, hpos]
  decide

/-! ### C8 — permission change (`ema_modify_permissions`)

The in-enclave instructions issued by `ema_modify_permissions` are
modelled as an event trace.  The page loop issues, per page,
`EMODPE` when `(new_prot | prot) != prot` and `EACCEPT` when
`(new_prot & (WRITE | EXEC)) != (WRITE | EXEC)`; the function returns
before the loop both when `prot == new_prot` (no-op) and when the
`modify_ocall` fails (`ocall_ok = false` → `EFAULT`), issuing nothing.
The node splits after the loop issue no `EMODPE`/`EACCEPT` and are not
part of this trace model (a failing `do_eaccept` would truncate the
trace; the trace below is the maximal one, as issued when every
`EACCEPT` succeeds). -/

inductive MpEvent where
  | emodpe (a : Nat)
  | eaccept (a : Nat)
deriving DecidableEq, Repr

/-- Per-page events of the loop at lines 981–993 of `ema.c`; the
recursion parameter is the number of remaining pages. -/
def mp_page_events (prot new_prot : Nat) : Nat → Nat → List MpEvent
  | _, 0 => []
  | addr, n + 1 =>
    ((if (new_prot ||| prot) ≠ prot then [MpEvent.emodpe addr] else []) ++
      (if new_prot &&& (SGX_EMA_PROT_WRITE ||| SGX_EMA_PROT_EXEC) ≠
          (SGX_EMA_PROT_WRITE ||| SGX_EMA_PROT_EXEC) then
        [MpEvent.eaccept addr]
      else [])) ++
      mp_page_events prot new_prot (addr + SGX_PAGE_SIZE) n

/-- The instruction trace of `ema_modify_permissions(node, start, end,
new_prot)`; `ocall_ok` is the success of the `sgx_mm_modify_ocall`
preceding the loop. -/
def ema_modify_permissions_hw (node : ema_t) (s e new_prot : Nat)
    (ocall_ok : Bool) : List MpEvent :=
  if node.si_flags &&& SGX_EMA_PROT_MASK = new_prot then []
  else if !ocall_ok then []
  else
    mp_page_events (node.si_flags &&& SGX_EMA_PROT_MASK) new_prot
      (max s node.start_addr)
      ((min e (node.start_addr + node.size) - max s node.start_addr +
        (SGX_PAGE_SIZE - 1)) / SGX_PAGE_SIZE)

/-- A committed one-page EMA with READ permission, REG type. -/
def c8_ema : ema_t :=
  { start_addr := 0x1000
    size := 0x1000
    alloc_flags := SGX_EMA_COMMIT_ON_DEMAND
    si_flags := SGX_EMA_PAGE_TYPE_REG ||| SGX_EMA_PROT_READ
    eaccept_map := some ⟨1, 1, [1]⟩ }

/-- Counterexample for C8: changing the page's permissions from READ to
WRITE+EXEC (without READ — not exactly READ+WRITE+EXEC) issues `EMODPE`
but no `EACCEPT`, because the source tests only the WRITE and EXEC
bits; the claim says an `EACCEPT` is issued whenever the new set is not
exactly R+W+X. -/
theorem c8_counterexample :
    ema_modify_permissions_hw c8_ema 0x1000 0x2000
        (SGX_EMA_PROT_WRITE ||| SGX_EMA_PROT_EXEC) true =
      [MpEvent.emodpe 0x1000] ∧
    (SGX_EMA_PROT_WRITE ||| SGX_EMA_PROT_EXEC) ≠
      (SGX_EMA_PROT_READ ||| SGX_EMA_PROT_WRITE ||| SGX_EMA_PROT_EXEC) ∧
    MpEvent.eaccept 0x1000 ∉
      ema_modify_permissions_hw c8_ema 0x1000 0x2000
        (SGX_EMA_PROT_WRITE ||| SGX_EMA_PROT_EXEC) true := by
  refine ⟨by decide, by decide, by decide⟩

theorem pages_succ_iff (addr a n : Nat) :
    (∃ k, k < n + 1 ∧ a = addr + 4096 * k) ↔
      (a = addr ∨ ∃ k, k < n ∧ a = addr + 4096 + 4096 * k) := by
  constructor
  · rintro ⟨k, hk, ha⟩
    cases k with
    | zero => left; simpa using ha
    | succ j =>
      right
      refine ⟨j, by omega, ?_⟩
      subst ha
      ring
  · rintro (ha | ⟨k, hk, ha⟩)
    · exact ⟨0, by omega, by simpa using ha⟩
    · refine ⟨k + 1, by omega, ?_⟩
      subst ha
      ring

theorem mp_events_eaccept_mem (prot np : Nat) :
    ∀ (n addr a : Nat),
      MpEvent.eaccept a ∈ mp_page_events prot np addr n ↔
        ((∃ k, k < n ∧ a = addr + 4096 * k) ∧
          np &&& (SGX_EMA_PROT_WRITE ||| SGX_EMA_PROT_EXEC) ≠
            (SGX_EMA_PROT_WRITE ||| SGX_EMA_PROT_EXEC)) := by
  intro n
  induction n with
  | zero =>
    intro addr a
    simp [mp_page_events]
  | succ k ih =>
    intro addr a
    unfold mp_page_events
    have hP : addr + SGX_PAGE_SIZE = addr + 4096 := rfl
    simp only [List.mem_append, ih, hP, pages_succ_iff]
    by_cases h1 : (np ||| prot) ≠ prot <;>
      by_cases h2 : np &&& (SGX_EMA_PROT_WRITE ||| SGX_EMA_PROT_EXEC) ≠
        (SGX_EMA_PROT_WRITE ||| SGX_EMA_PROT_EXEC) <;>
      simp [h1, h2] <;> tauto

theorem mp_events_emodpe_mem (prot np : Nat) :
    ∀ (n addr a : Nat),
      MpEvent.emodpe a ∈ mp_page_events prot np addr n ↔
        ((∃ k, k < n ∧ a = addr + 4096 * k) ∧ (np ||| prot) ≠ prot) := by
  intro n
  induction n with
  | zero =>
    intro addr a
    simp [mp_page_events]
  | succ k ih =>
    intro addr a
    unfold mp_page_events
    have hP : addr + SGX_PAGE_SIZE = addr + 4096 := rfl
    simp only [List.mem_append, ih, hP, pages_succ_iff]
    by_cases h1 : (np ||| prot) ≠ prot <;>
      by_cases h2 : np &&& (SGX_EMA_PROT_WRITE ||| SGX_EMA_PROT_EXEC) ≠
        (SGX_EMA_PROT_WRITE ||| SGX_EMA_PROT_EXEC) <;>
      simp [h1, h2] <;> tauto

/-- C8, amended: in `ema_modify_permissions`, for every page the loop
visits (when `new_prot` differs from the current permissions and the
out-call succeeded): `EMODPE` is issued exactly when the new permission
set adds at least one bit not in the old permissions, and
`EACCEPT(PR|REG|new_prot)` is issued if and only if the new permission
set does not contain both WRITE and EXEC.  (For API-valid permission
sets, where WRITE or EXEC imply READ, "contains WRITE and EXEC"
coincides with "is exactly READ+WRITE+EXEC"; the bare `WRITE|EXEC` set
of the counterexample separates the two readings.) -/
theorem c8_modify_permissions_events (node : ema_t) (s e new_prot a : Nat)
    (hne : node.si_flags &&& SGX_EMA_PROT_MASK ≠ new_prot)
    (ha : ∃ k,
      k < (min e (node.start_addr + node.size) - max s node.start_addr +
        (SGX_PAGE_SIZE - 1)) / SGX_PAGE_SIZE ∧
      a = max s node.start_addr + 4096 * k) :
    (MpEvent.emodpe a ∈ ema_modify_permissions_hw node s e new_prot true ↔
      (new_prot ||| (node.si_flags &&& SGX_EMA_PROT_MASK)) ≠
        (node.si_flags &&& SGX_EMA_PROT_MASK)) ∧
    (MpEvent.eaccept a ∈ ema_modify_permissions_hw node s e new_prot true ↔
      new_prot &&& (SGX_EMA_PROT_WRITE ||| SGX_EMA_PROT_EXEC) ≠
        (SGX_EMA_PROT_WRITE ||| SGX_EMA_PROT_EXEC)) := by
  unfold ema_modify_permissions_hw
  rw [if_neg hne, if_neg (by simp)]
  rw [mp_events_emodpe_mem, mp_events_eaccept_mem]
  constructor
  · constructor
    · rintro ⟨_, hc⟩
      exact hc
    · intro hc
      exact ⟨ha, hc⟩
  · constructor
    · rintro ⟨_, hc⟩
      exact hc
    · intro hc
      exact ⟨ha, hc⟩

/-- Witness for C8's amended theorem: demoting the READ page at
`0x1000` to PROT_NONE issues no EMODPE (no bit added) and does issue
the EACCEPT (the new set lacks WRITE and EXEC). -/
theorem c8_witness :
    (MpEvent.emodpe 0x1000 ∈
        ema_modify_permissions_hw c8_ema 0x1000 0x2000 SGX_EMA_PROT_NONE true ↔
      (SGX_EMA_PROT_NONE ||| (c8_ema.si_flags &&& SGX_EMA_PROT_MASK)) ≠
        (c8_ema.si_flags &&& SGX_EMA_PROT_MASK)) ∧
    (MpEvent.eaccept 0x1000 ∈
        ema_modify_permissions_hw c8_ema 0x1000 0x2000 SGX_EMA_PROT_NONE true ↔
      SGX_EMA_PROT_NONE &&& (SGX_EMA_PROT_WRITE ||| SGX_EMA_PROT_EXEC) ≠
        (SGX_EMA_PROT_WRITE ||| SGX_EMA_PROT_EXEC)) :=
  c8_modify_permissions_events c8_ema 0x1000 0x2000 SGX_EMA_PROT_NONE 0x1000
    (by decide) ⟨0, by decide, by decide⟩

/-! ### C1 — EACCEPT order of `ema_do_alloc` / `do_commit`

`eaccept_range_forward` walks `[start, end)` upward, one `EACCEPT` per
page (aborting on failure, so a completed walk is a successful one);
`eaccept_range_backward` walks the same pages downward (a `do/while`
whose precondition `start < end` is asserted; its body runs
`⌈(end − start)/PAGE⌉` times, the recursion parameter below).  The
traces are the EACCEPTed addresses in order. -/

def eaccept_fwd_go (start : Nat) : Nat → List Nat
  | 0 => []
  | n + 1 => start :: eaccept_fwd_go (start + SGX_PAGE_SIZE) n

def eaccept_range_forward (start e : Nat) : List Nat :=
  eaccept_fwd_go start ((e - start + (SGX_PAGE_SIZE - 1)) / SGX_PAGE_SIZE)

def eaccept_bwd_go (e : Nat) : Nat → List Nat
  | 0 => []
  | n + 1 => (e - SGX_PAGE_SIZE) :: eaccept_bwd_go (e - SGX_PAGE_SIZE) n

def eaccept_range_backward (start e : Nat) : List Nat :=
  eaccept_bwd_go e ((e - start + (SGX_PAGE_SIZE - 1)) / SGX_PAGE_SIZE)

/-- The function `do_commit(start, size, si_flags, grow_up)`: the
`sec_info` is the constant `si_flags | PENDING`; the branch on
`grow_up` selects the backward walk when `grow_up` holds and the
forward walk otherwise (this is the branch under study in C1). -/
def do_commit (start size si_flags : Nat) (grow_up : Bool) : List Nat :=
  if grow_up then eaccept_range_backward start (start + size)
  else eaccept_range_forward start (start + size)

/-- `ema_set_eaccept_full`: create an all-ones bitmap of one bit per
page, or set every bit of the existing one. -/
def ema_set_eaccept_full (ok1 ok2 : Bool) (node : ema_t) : Nat × ema_t :=
  match node.eaccept_map with
  | none =>
    match bit_array_new_set ok1 ok2 (node.size >>> SGX_PAGE_SHIFT) with
    | none => (ENOMEM, node)
    | some m => (0, { node with eaccept_map := some m })
  | some m => (0, { node with eaccept_map := some (bit_array_set_all m) })

/-- `ema_clear_eaccept_full`: create an all-zero bitmap, or clear the
existing one. -/
def ema_clear_eaccept_full (ok1 ok2 : Bool) (node : ema_t) : Nat × ema_t :=
  match node.eaccept_map with
  | none =>
    match bit_array_new_reset ok1 ok2 (node.size >>> SGX_PAGE_SHIFT) with
    | none => (ENOMEM, node)
    | some m => (0, { node with eaccept_map := some m })
  | some m => (0, { node with eaccept_map := some (bit_array_reset_all m) })

/-- The function `ema_do_alloc(node)`: RESERVE nodes return at once;
a failing `alloc_ocall` (`ocall_ok = false`) returns `EFAULT` with no
EACCEPT; under COMMIT_NOW it runs `do_commit` with
`grow_up = (alloc_flags & GROWSDOWN) ? 0 : 1` (a completed `do_commit`
returns 0, since EACCEPT failures abort), then initializes the bitmap
all-ones (COMMIT_NOW) or all-zeros (COMMIT_ON_DEMAND).  Returns
`(ret, node', EACCEPT trace)`. -/
def ema_do_alloc (ocall_ok ok1 ok2 : Bool) (node : ema_t) :
    Nat × ema_t × List Nat :=
  if node.alloc_flags &&& SGX_EMA_RESERVE ≠ 0 then (0, node, [])
  else if !ocall_ok then (EFAULT, node, [])
  else
    let tr :=
      if node.alloc_flags &&& SGX_EMA_COMMIT_NOW ≠ 0 then
        do_commit node.start_addr node.size node.si_flags
          (node.alloc_flags &&& SGX_EMA_GROWSDOWN = 0)
      else []
    if node.alloc_flags &&& SGX_EMA_COMMIT_NOW ≠ 0 then
      ((ema_set_eaccept_full ok1 ok2 node).1,
        (ema_set_eaccept_full ok1 ok2 node).2, tr)
    else
      ((ema_clear_eaccept_full ok1 ok2 node).1,
        (ema_clear_eaccept_full ok1 ok2 node).2, tr)

/-- The concrete input of spec scenario S2: a 0x4000-byte EMA allocated
with COMMIT_NOW|GROWSDOWN (REG, RW), placed at `0x10000`. -/
def c1_ema : ema_t :=
  { start_addr := 0x10000
    size := 0x4000
    alloc_flags := SGX_EMA_COMMIT_NOW ||| SGX_EMA_GROWSDOWN
    si_flags := SGX_EMA_PAGE_TYPE_REG ||| SGX_EMA_PROT_READ_WRITE
    eaccept_map := none }

/-- C1: the code walks a COMMIT_NOW|GROWSDOWN allocation of 0x4000
bytes in FORWARD order — `ema_do_alloc` computes
`grow_up = (flags & GROWSDOWN) ? 0 : 1` and `do_commit` EACCEPTs
backward when `grow_up` and forward otherwise, so the GROWSDOWN region
gets the forward walk `addr, …, addr+0x3000`, not the backward
sequence `addr+0x3000 … addr` that the spec (§4.4 Allocation, scenario
S2) requires; by the same branch a grow-up region is walked backward.
This theorem evaluates the embedded code at the failing input. -/
theorem c1_growsdown_commit_order :
    (ema_do_alloc true true true c1_ema).2.2 =
      [0x10000, 0x11000, 0x12000, 0x13000] ∧
    (ema_do_alloc true true true c1_ema).2.2 ≠
      [0x13000, 0x12000, 0x11000, 0x10000] ∧
    (do_commit 0x10000 0x4000
        (SGX_EMA_PAGE_TYPE_REG ||| SGX_EMA_PROT_READ_WRITE) true) =
      [0x13000, 0x12000, 0x11000, 0x10000] := by
  refine ⟨by decide, by decide, by decide⟩

/-! ### C6 — `ema_split`

The circular list of a root is modelled as the `List` of its nodes; the
node being split is `l[i]`.  `ema_split` allocates a new node
(`okNode`), splits the bitmap when there is one (`ok1 ok2 ok3`, as in
`bit_array_split`), clones the attributes, inserts the new node before
(`new_lower`) or after the original, and adjusts the two ranges: the
lower node gets `[start_addr, addr)`, the higher `[addr, start+size)`.
The result is `(ret, new list, index of *ret_node)`; both error paths
(`emalloc` failure, bitmap-split failure — the latter after
`efree(new_node)`) return before any list or bitmap mutation. -/

def ema_split (okNode ok1 ok2 ok3 : Bool) (l : List ema_t) (i addr : Nat)
    (new_lower : Bool) : Nat × List ema_t × Option Nat :=
  match l[i]? with
  | none => (EINVAL, l, none)
  | some ema =>
    if !okNode then (ENOMEM, l, none)
    else
      match (match ema.eaccept_map with
             | none => Except.ok ((none : Option bit_array), none)
             | some m => bit_array_split ok1 ok2 ok3 m
                 ((addr - ema.start_addr) >>> SGX_PAGE_SHIFT)) with
      | .error r => (r, l, none)
      | .ok (low, high) =>
        (0,
          l.take i ++
            [{ ema with
                size := addr - ema.start_addr
                eaccept_map := low },
             { ema with
                start_addr := addr
                size := ema.size - (addr - ema.start_addr)
                eaccept_map := high }] ++ l.drop (i + 1),
          some (if new_lower then i else i + 1))

theorem pos_decompose (pos : Nat) : (pos / 8) <<< 3 + pos % 8 = pos := by
  rw [Nat.shiftLeft_eq]
  norm_num
  omega

/-- On a true inner split position with all allocations available,
`bit_array_split` succeeds with the lower/higher arrays built by the
two copy loops. -/
theorem bit_array_split_ok (ba : bit_array) (pos : Nat) (hp0 : 0 < pos)
    (hplt : pos < ba.n_bits) (hsz : ba.n_bits < 2 ^ 32) :
    bit_array_split true true true ba pos = .ok
      (some { n_bytes := NUM_OF_BYTES ((pos / 8) <<< 3 + pos % 8)
              n_bits := (pos / 8) <<< 3 + pos % 8
              data := split_lo_bytes ba.data (pos / 8) (pos % 8) },
       some { n_bytes :=
                NUM_OF_BYTES (ba.n_bits - ((pos / 8) <<< 3 + pos % 8))
              n_bits := ba.n_bits - ((pos / 8) <<< 3 + pos % 8)
              data := split_hi_bytes ba.data (pos % 8)
                (ba.n_bits - ((pos / 8) <<< 3 + pos % 8)) (pos / 8) }) := by
  have hlbits := pos_decompose pos
  have hnew := bit_array_new_success (ba.n_bits - ((pos / 8) <<< 3 + pos % 8))
    (by rw [hlbits]; omega) (by rw [hlbits]; omega)
  unfold bit_array_split
  rw [if_neg (by omega), if_neg (by omega), if_neg (by simp), hnew]

/-- C6: for every EMA and every split address strictly inside it, if
`ema_split` returns `ENOMEM` (node allocation or bitmap split failed)
then the EMA list — and with it the original EMA's range, flags, and
eaccept bitmap — is exactly as before the call, and no node pointer is
produced; on success (all allocations available) the list replaces the
node by its lower half `[start, addr)` at index `i` and its upper half
`[addr, end)` at `i + 1`, and the index returned through `ret_node`
(the freshly allocated node) designates the lower half iff `new_lower`
is true.  The success case is stated for a node with a bitmap (a
non-RESERVE node); `hp0`/`hplt` say that `addr` is strictly inside at
page granularity. -/
theorem c6_ema_split_spec (l : List ema_t) (i addr : Nat) (ema : ema_t)
    (m : bit_array) (new_lower : Bool) (hget : l[i]? = some ema)
    (hm : ema.eaccept_map = some m)
    (hp0 : 0 < (addr - ema.start_addr) >>> SGX_PAGE_SHIFT)
    (hplt : (addr - ema.start_addr) >>> SGX_PAGE_SHIFT < m.n_bits)
    (hsz : m.n_bits < 2 ^ 32) :
    (∀ okNode ok1 ok2 ok3,
      (ema_split okNode ok1 ok2 ok3 l i addr new_lower).1 = ENOMEM →
        (ema_split okNode ok1 ok2 ok3 l i addr new_lower).2.1 = l ∧
        (ema_split okNode ok1 ok2 ok3 l i addr new_lower).2.2 = none) ∧
    (∃ low high,
      ema_split true true true true l i addr new_lower =
        (0,
          l.take i ++
            [{ ema with
                size := addr - ema.start_addr
                eaccept_map := some low },
             { ema with
                start_addr := addr
                size := ema.size - (addr - ema.start_addr)
                eaccept_map := some high }] ++ l.drop (i + 1),
          some (if new_lower then i else i + 1))) := by
  constructor
  · intro okNode ok1 ok2 ok3 hret
    unfold ema_split at hret ⊢
    rw [hget] at hret ⊢
    dsimp only at hret ⊢
    by_cases hok : okNode
    · rw [if_neg (by simp [hok])] at hret ⊢
      rcases hsplit : (match ema.eaccept_map with
          | none => Except.ok ((none : Option bit_array), none)
          | some m => bit_array_split ok1 ok2 ok3 m
              ((addr - ema.start_addr) >>> SGX_PAGE_SHIFT)) with r | pair
      · rw [hsplit] at hret ⊢
        exact ⟨rfl, rfl⟩
      · rcases pair with ⟨low, high⟩
        rw [hsplit] at hret
        dsimp only at hret
        exact absurd hret (by decide)
    · simp only [Bool.not_eq_true] at hok
      rw [hok] at hret ⊢
      exact ⟨rfl, rfl⟩
  · have hs : ∃ lo hi,
        bit_array_split true true true m
          ((addr - ema.start_addr) >>> SGX_PAGE_SHIFT) =
          .ok (some lo, some hi) :=
      ⟨_, _, bit_array_split_ok m _ hp0 hplt hsz⟩
    rcases hs with ⟨lo, hi, hs⟩
    refine ⟨lo, hi, ?_⟩
    unfold ema_split
    rw [hget]
    dsimp only
    rw [if_neg (by simp), hm]
    dsimp only
    rw [hs]

/-- A three-page committed EMA used as the C6 witness input. -/
def c6_ema : ema_t :=
  { start_addr := 0x1000
    size := 0x3000
    alloc_flags := SGX_EMA_COMMIT_ON_DEMAND
    si_flags := SGX_EMA_PAGE_TYPE_REG ||| SGX_EMA_PROT_READ_WRITE
    eaccept_map := some ⟨1, 3, [5]⟩ }

/-- Witness for C6: splitting the EMA `[0x1000, 0x4000)` at `0x2000`
with `new_lower = true`. -/
theorem c6_witness :
    (∀ okNode ok1 ok2 ok3,
      (ema_split okNode ok1 ok2 ok3 [c6_ema] 0 0x2000 true).1 = ENOMEM →
        (ema_split okNode ok1 ok2 ok3 [c6_ema] 0 0x2000 true).2.1 =
          [c6_ema] ∧
        (ema_split okNode ok1 ok2 ok3 [c6_ema] 0 0x2000 true).2.2 = none) ∧
    (∃ low high,
      ema_split true true true true [c6_ema] 0 0x2000 true =
        (0,
          [c6_ema].take 0 ++
            [{ c6_ema with
                size := 0x2000 - c6_ema.start_addr
                eaccept_map := some low },
             { c6_ema with
                start_addr := 0x2000
                size := c6_ema.size - (0x2000 - c6_ema.start_addr)
                eaccept_map := some high }] ++ [c6_ema].drop 1,
          some (if true then 0 else 0 + 1))) :=
  c6_ema_split_spec [c6_ema] 0 0x2000 c6_ema ⟨1, 3, [5]⟩ true rfl rfl
    (by decide) (by decide) (by norm_num)

/-! ### Internal heap free path (`emalloc.c`)

State model: `hdr` maps a block's address to its header word (size with
the low `alloc` bit); `reserves` is the reserve list (`base`, `size`,
`used`); `freeLists` is the multiset of block addresses currently on
the segregated free lists, in LIFO order — the source keeps intrusive
`next_prev` pointers inside the free blocks, and each list operation
(`prepend_to_list`, `remove_from_list(s)`, the large-list scan) is
modelled by its effect on which addresses are listed (a block is on the
*large* list iff it is listed and its size exceeds `max_exact_size`).
`metaLo`/`metaHi` are the bounds of the static `meta_reserve` buffer;
`adding_reserve` is the recursion fence flag.  The loop in
`possibly_merge` carries an explicit `fuel` bound on loop iterations;
`efree` reports `outOfFuel` when the loop fails to exit within any
given bound. -/

structure mm_reserve where
  base : Nat
  size : Nat
  used : Nat
deriving DecidableEq, Repr

structure EHeap where
  reserves : List mm_reserve
  hdr : List (Nat × Nat)
  freeLists : List Nat
  metaLo : Nat
  metaHi : Nat
  adding_reserve : Bool
deriving DecidableEq, Repr

/-- Read the header word stored at block address `a` (0 when absent —
absent addresses are never dereferenced in the claims' inputs). -/
def hdrAt (h : List (Nat × Nat)) (a : Nat) : Nat :=
  match h.find? (fun p => p.1 == a) with
  | some p => p.2
  | none => 0

/-- Write the header word at block address `a`. -/
def hdrSet : List (Nat × Nat) → Nat → Nat → List (Nat × Nat)
  | [], a, v => [(a, v)]
  | p :: r, a, v => if p.1 = a then (a, v) :: r else p :: hdrSet r a v

/-- The `size_mask` (`~(uint64_t)(exact_match_increment - 1)`) applied
to a header: `block_size`. -/
def block_size_h (hw : Nat) : Nat := hw &&& (2 ^ 64 - 8)

/-- The `alloc_mask` test: `is_alloced`. -/
def is_alloced_h (hw : Nat) : Bool := hw &&& 1 != 0

/-- `num_exact_list`/`min_block_size` bound: `max_exact_size`
(= 16 + 8·255). -/
def max_exact_size : Nat := 16 + 8 * 255

def find_used_in_reserve (rs : List mm_reserve) (addr size : Nat) :
    Option mm_reserve :=
  if size = 0 then none
  else rs.find? (fun r =>
    decide (addr ≥ r.base) && decide (addr + size ≤ r.base + r.used))

/-- The function `neighbor_right(me)`.  Note the source passes the
absolute end address `end` as the *size* argument of the first
`find_used_in_reserve` lookup. -/
def neighbor_right (hp : EHeap) (me : Nat) : Option Nat :=
  match find_used_in_reserve hp.reserves me
      (me + block_size_h (hdrAt hp.hdr me)) with
  | none => none
  | some r1 =>
    if me + block_size_h (hdrAt hp.hdr me) = r1.base + r1.used then none
    else
      match find_used_in_reserve hp.reserves
          (me + block_size_h (hdrAt hp.hdr me))
          (block_size_h (hdrAt hp.hdr
            (me + block_size_h (hdrAt hp.hdr me)))) with
      | some r2 =>
        if r1 = r2 then some (me + block_size_h (hdrAt hp.hdr me))
        else none
      | none => none

/-- The `while (nr && is_alloced(nr))` loop of `possibly_merge`: `nr`
is computed once before the loop; each iteration removes `nr` from the
free lists and adds its size to `b`'s header.  `fuel` bounds the
iterations; `none` means the bound was exhausted. -/
def possibly_merge_go (b : Nat) (nr : Option Nat) :
    Nat → EHeap → Option EHeap
  | 0, _ => none
  | fuel + 1, hp =>
    match nr with
    | none => some hp
    | some nra =>
      if is_alloced_h (hdrAt hp.hdr nra) then
        possibly_merge_go b nr fuel
          { hp with
              freeLists := hp.freeLists.erase nra
              hdr := hdrSet hp.hdr b
                (hdrAt hp.hdr b + block_size_h (hdrAt hp.hdr nra)) }
      else some hp

def possibly_merge (fuel : Nat) (hp : EHeap) (b : Nat) : Option EHeap :=
  possibly_merge_go b (neighbor_right hp b) fuel hp

/-- `reconfigure_block`: clear the alloc bit (the `next_prev` pointer
zeroing only touches free-list links), then `possibly_merge`. -/
def reconfigure_block (fuel : Nat) (hp : EHeap) (b : Nat) : Option EHeap :=
  possibly_merge fuel
    { hp with hdr := hdrSet hp.hdr b (block_size_h (hdrAt hp.hdr b)) } b

/-- `get_large_block_end_at(addr)`: scan the large list (listed blocks
of size above `max_exact_size`) for a block whose end is `addr`. -/
def get_large_block_end_at (hdr : List (Nat × Nat)) (fl : List Nat)
    (addr : Nat) : Option Nat :=
  fl.find? (fun t =>
    decide (max_exact_size < block_size_h (hdrAt hdr t)) &&
      decide (t + hdrAt hdr t = addr))

/-- The loop of `merge_large_blocks_to_reserve`: each found block is
removed from the list and `used_end` retreats by its header.  Each
iteration removes one listed address, so `fl.length` iterations always
suffice; the fuel is supplied as exactly that at the call site. -/
def merge_large_go (hdr : List (Nat × Nat)) :
    Nat → List Nat → Nat → Nat × List Nat
  | 0, fl, used_end => (used_end, fl)
  | fuel + 1, fl, used_end =>
    match get_large_block_end_at hdr fl used_end with
    | none => (used_end, fl)
    | some t => merge_large_go hdr fuel (fl.erase t) (used_end - hdrAt hdr t)

/-- `put_free_block` / `put_exact_block`: LIFO prepend (to the exact
list or the large list — the same listing in this model). -/
def put_free_block (hp : EHeap) (b : Nat) : EHeap :=
  { hp with freeLists := b :: hp.freeLists }

/-- Result of `efree`: the new heap, `abort()`, or a loop that did not
finish within the given fuel. -/
inductive ERes where
  | ok : EHeap → ERes
  | aborted : ERes
  | outOfFuel : ERes
deriving DecidableEq, Repr

/-- The function `efree(payload)`: meta-reserve blocks are ignored
under `adding_reserve` and abort otherwise; normal blocks must sit in a
reserve's used span (else abort); then `reconfigure_block`, and either
the bump-pointer give-back path (block ends at the reserve's used
boundary: shrink `used`, then fold in large free blocks ending there)
or `put_free_block`. -/
def efree (fuel : Nat) (hp : EHeap) (payload : Nat) : ERes :=
  if payload - 8 < hp.metaHi ∧
      payload - 8 + block_size_h (hdrAt hp.hdr (payload - 8)) > hp.metaLo then
    (if hp.adding_reserve then .ok hp else .aborted)
  else
    match find_used_in_reserve hp.reserves (payload - 8)
        (block_size_h (hdrAt hp.hdr (payload - 8))) with
    | none => .aborted
    | some r =>
      match reconfigure_block fuel hp (payload - 8) with
      | none => .outOfFuel
      | some hp1 =>
        if (payload - 8) + block_size_h (hdrAt hp1.hdr (payload - 8)) -
            r.base = r.used then
          match merge_large_go hp1.hdr hp1.freeLists.length hp1.freeLists
              (r.base + (r.used - hdrAt hp1.hdr (payload - 8))) with
          | (ue, fl) =>
            .ok { hp1 with
                    freeLists := fl
                    reserves := hp1.reserves.map (fun x =>
                      if x = r then { x with used := ue - x.base } else x) }
        else .ok (put_free_block hp1 (payload - 8))

/-! ### C2 — `efree` does not coalesce with the free right neighbor

Heap layout: one reserve `[16, 112)` with `used = 80`; block `[16, 48)`
allocated (header `32|1`) — the one being freed; block `[48, 80)` free
(header `32`, on the free lists); block `[80, 96)` allocated.  The
right neighbor of the freed block is the free block at 48, and
`neighbor_right` does find it, but `possibly_merge`'s loop condition
`while (nr && is_alloced(nr))` is false for a *free* neighbor, so no
merge happens. -/

def c2_heap : EHeap :=
  { reserves := [⟨16, 96, 80⟩]
    hdr := [(16, 33), (48, 32), (80, 17)]
    freeLists := [48]
    metaLo := 0x100000
    metaHi := 0x110000
    adding_reserve := false }

/-- C2: freeing the 32-byte block at 16 whose right neighbor `[48, 80)`
inside the same reserve is free does NOT coalesce them: the freed
block keeps header 32 (not 64) and the neighbor stays its own listed
free block — `possibly_merge` skips free right neighbors (its loop
runs only while the neighbor `is_alloced`).  This theorem evaluates
the embedded `efree` at the failing input. -/
theorem c2_no_merge_with_free_right_neighbor :
    efree 5 c2_heap 24 =
      .ok { reserves := [⟨16, 96, 80⟩]
            hdr := [(16, 32), (48, 32), (80, 17)]
            freeLists := [16, 48]
            metaLo := 0x100000
            metaHi := 0x110000
            adding_reserve := false } ∧
    neighbor_right { c2_heap with hdr := [(16, 32), (48, 32), (80, 17)] }
      16 = some 48 ∧
    hdrAt [(16, 32), (48, 32), (80, 17)] 16 ≠ 64 := by
  refine ⟨by decide, by decide, by decide⟩

/-! ### C3 — `efree` diverges when the right neighbor is allocated

Same reserve, blocks `[16, 48)` (being freed) and `[48, 80)` both
allocated, `used = 64`.  `neighbor_right` yields the allocated block
at 48; the loop `while (nr && is_alloced(nr))` never updates `nr` nor
the neighbor's header, so its condition stays true forever. -/

def c3_heap : EHeap :=
  { reserves := [⟨16, 96, 64⟩]
    hdr := [(16, 33), (48, 33)]
    freeLists := []
    metaLo := 0x100000
    metaHi := 0x110000
    adding_reserve := false }

theorem hdrAt_hdrSet_ne (h : List (Nat × Nat)) (a b v : Nat)
    (hne : a ≠ b) : hdrAt (hdrSet h b v) a = hdrAt h a := by
  induction h with
  | nil =>
    unfold hdrSet hdrAt
    have hba : (b == a) = false := by simp [Ne.symm hne]
    simp [List.find?, hba]
  | cons p r ih =>
    unfold hdrSet
    by_cases hp : p.1 = b
    · rw [if_pos hp]
      unfold hdrAt
      unfold List.find?
      have h1 : (b == a) = false := by simp [Ne.symm hne]
      have h2 : (p.1 == a) = false := by simp [hp, Ne.symm hne]
      simp only [h1, h2]
    · rw [if_neg hp]
      unfold hdrAt
      unfold List.find?
      by_cases hpa : p.1 = a
      · simp only [hpa, beq_self_eq_true]
      · have h2 : (p.1 == a) = false := by simp [hpa]
        simp only [h2]
        exact ih

/-- The loop of `possibly_merge` never terminates — within any fuel —
once its (never-recomputed) right neighbor is allocated: the loop body
changes neither `nr` nor the neighbor's header. -/
theorem possibly_merge_go_alloced (b nra : Nat) (hne : nra ≠ b) :
    ∀ (fuel : Nat) (hp : EHeap),
      is_alloced_h (hdrAt hp.hdr nra) = true →
      possibly_merge_go b (some nra) fuel hp = none := by
  intro fuel
  induction fuel with
  | zero => intro hp _; rfl
  | succ k ih =>
    intro hp hal
    unfold possibly_merge_go
    dsimp only
    rw [hal, if_pos rfl]
    apply ih
    simpa [hdrAt_hdrSet_ne _ nra b _ hne] using hal

theorem efree_outOfFuel (fuel : Nat) (hp : EHeap) (payload : Nat)
    (r : mm_reserve)
    (hmeta : ¬ (payload - 8 < hp.metaHi ∧
      payload - 8 + block_size_h (hdrAt hp.hdr (payload - 8)) > hp.metaLo))
    (hfind : find_used_in_reserve hp.reserves (payload - 8)
      (block_size_h (hdrAt hp.hdr (payload - 8))) = some r)
    (hrec : reconfigure_block fuel hp (payload - 8) = none) :
    efree fuel hp payload = .outOfFuel := by
  unfold efree
  rw [if_neg hmeta, hfind, hrec]

/-- C3: `efree` of the valid allocated block at 16 — a configuration in
which the freed block's right neighbor in the reserve is still
allocated — does not run to completion within ANY number of loop
iterations: `possibly_merge`'s `while (nr && is_alloced(nr))` loop
never exits.  The claim (operations run to completion or return an
error in finitely many steps) is right and the code wrong. -/
theorem c3_efree_allocated_neighbor_diverges :
    ∀ fuel : Nat, efree fuel c3_heap 24 = .outOfFuel := by
  intro fuel
  apply efree_outOfFuel fuel c3_heap 24 ⟨16, 96, 64⟩ (by decide) (by decide)
  unfold reconfigure_block possibly_merge
  have hnr : neighbor_right
      { c3_heap with
          hdr := hdrSet c3_heap.hdr 16 (block_size_h (hdrAt c3_heap.hdr 16)) }
      16 = some 48 := by decide
  rw [hnr]
  exact possibly_merge_go_alloced 16 48 (by decide) fuel _ (by decide)

/-! ### C9 — sortedness and non-overlap across the public operations

The public dispatchers (`sgx_mm.c` / `emm_private.c`) are not among the
extracted sources; following the status rules they are modelled from
the spec (§4.4 and §6) as effects on the two EMA lists, built over the
embedded node/split/bitmap operations: an allocation inserts a node at
a verified-free spot (`find_free_region`/`find_free_region_at` only
report ranges disjoint from every node); commit/uncommit/commit-data
only touch bitmaps; dealloc and the permission/type changes trim the
covered nodes to the operated range (the `ema_split`/`ema_split_ex`
effect: optional left remainder, transformed middle, optional right
remainder) and update flags or destroy the middle.  Each operation is
applied to the root(s) owning the range; applying the transforms to
both roots covers every routing the dispatcher can choose. -/

def Sep (a b : ema_t) : Prop := ema_end a ≤ b.start_addr

instance : DecidableRel Sep := fun _ _ => Nat.decLe _ _

/-- The C9 invariant: the nodes of a root, in link order, are pairwise
separated (`a.end ≤ b.start` along the order) and of positive size. -/
def emaInv (l : List ema_t) : Prop :=
  l.Pairwise Sep ∧ ∀ x ∈ l, 0 < x.size

/-- Insert a node before the first node lying entirely above it (the
position `find_free_region`/`find_free_region_at` hand to `ema_new` as
`next_ema`). -/
def insertEMA (n : ema_t) : List ema_t → List ema_t
  | [] => [n]
  | e :: r =>
    if ema_end n ≤ e.start_addr then n :: e :: r else e :: insertEMA n r

/-- Modelled from the spec: `sgx_mm_alloc` (§6) — validate alignment,
verify the chosen range is free of every node on the root, create the
EMA (bitmap all-ones under COMMIT_NOW, all-zeros under
COMMIT_ON_DEMAND, absent for RESERVE) and link it in address order;
any failure leaves the list unchanged. -/
def mm_alloc (addr size aflags sflags : Nat) (l : List ema_t) :
    List ema_t :=
  if size = 0 ∨ size % SGX_PAGE_SIZE ≠ 0 ∨ addr % SGX_PAGE_SIZE ≠ 0 then l
  else if l.all (fun e =>
      decide (ema_end e ≤ addr) || decide (addr + size ≤ e.start_addr)) then
    insertEMA
      { start_addr := addr
        size := size
        alloc_flags := aflags
        si_flags := sflags
        eaccept_map :=
          if aflags &&& SGX_EMA_RESERVE ≠ 0 then none
          else if aflags &&& SGX_EMA_COMMIT_NOW ≠ 0 then
            bit_array_new_set true true (size >>> SGX_PAGE_SHIFT)
          else bit_array_new_reset true true (size >>> SGX_PAGE_SHIFT) } l
  else l

/-- Clear the bit at `pos` (`bit_array_reset_range` at width one:
`data[pos/8] &= clear_mask`). -/
def bit_array_reset_bit (ba : bit_array) (pos : Nat) : bit_array :=
  { ba with
    data := ba.data.set (pos / 8)
      ((ba.data.getD (pos / 8) 0) &&& (255 - 1 <<< (pos % 8))) }

def set_range_go : bit_array → Nat → Nat → bit_array
  | m, _, 0 => m
  | m, p, n + 1 => set_range_go (bit_array_set m p) (p + 1) n

def reset_range_go : bit_array → Nat → Nat → bit_array
  | m, _, 0 => m
  | m, p, n + 1 => reset_range_go (bit_array_reset_bit m p) (p + 1) n

/-- Modelled from the spec: `sgx_mm_commit` (§4.4 Commit) — per
covering EMA set the eaccept bits of the intersected pages; node
ranges and the list structure are untouched. -/
def mm_commit (addr size : Nat) (l : List ema_t) : List ema_t :=
  l.map (fun e =>
    if ema_end e ≤ addr ∨ addr + size ≤ e.start_addr then e
    else { e with eaccept_map := e.eaccept_map.map (fun m =>
      set_range_go m
        ((max addr e.start_addr - e.start_addr) >>> SGX_PAGE_SHIFT)
        ((min (addr + size) (ema_end e) - max addr e.start_addr) >>>
          SGX_PAGE_SHIFT)) })

/-- Modelled from the spec: `sgx_mm_uncommit` (§4.4 Uncommit) — clear
the eaccept bits of the intersected pages. -/
def mm_uncommit (addr size : Nat) (l : List ema_t) : List ema_t :=
  l.map (fun e =>
    if ema_end e ≤ addr ∨ addr + size ≤ e.start_addr then e
    else { e with eaccept_map := e.eaccept_map.map (fun m =>
      reset_range_go m
        ((max addr e.start_addr - e.start_addr) >>> SGX_PAGE_SHIFT)
        ((min (addr + size) (ema_end e) - max addr e.start_addr) >>>
          SGX_PAGE_SHIFT)) })

/-- Modelled from the spec: the `ema_split`/`ema_split_ex` trimming
effect on one node (§4.4): an uncovered node passes through; a covered
node is replaced by the optional remainder below the range, the
operated middle transformed by `mid` (`none` destroys it — dealloc;
`some` updates its flags — permission/type change), and the optional
remainder above the range. -/
def rtPieces (s t : Nat) (mid : ema_t → Option ema_t) (e : ema_t) :
    List ema_t :=
  if ema_end e ≤ s ∨ t ≤ e.start_addr then [e]
  else
    (if e.start_addr < max s e.start_addr then
      [{ e with size := max s e.start_addr - e.start_addr }]
    else []) ++
    (mid { e with
        start_addr := max s e.start_addr
        size := min t (ema_end e) - max s e.start_addr }).toList ++
    (if min t (ema_end e) < ema_end e then
      [{ e with
          start_addr := min t (ema_end e)
          size := ema_end e - min t (ema_end e) }]
    else [])

def rangeTransform (s t : Nat) (mid : ema_t → Option ema_t)
    (l : List ema_t) : List ema_t :=
  l.flatMap (rtPieces s t mid)

/-- Modelled from the spec: `sgx_mm_dealloc` (§4.4 Dealloc) — trim the
covered nodes to the range and destroy the middles. -/
def mm_dealloc (addr size : Nat) (l : List ema_t) : List ema_t :=
  if size = 0 then l
  else rangeTransform addr (addr + size) (fun _ => none) l

/-- Modelled from the spec: `sgx_mm_modify_permissions` (§4.4) — split
the covered nodes as needed and set the permission bits of the middle
pieces. -/
def mm_modify_permissions (addr size prot : Nat) (l : List ema_t) :
    List ema_t :=
  if size = 0 then l
  else rangeTransform addr (addr + size)
    (fun m => some { m with
      si_flags := (m.si_flags &&& SGX_EMA_PAGE_TYPE_MASK) ||| prot }) l

/-- Modelled from the spec: `sgx_mm_modify_type` to TCS (§4.4, one
page) — isolate the page and set its flags to TCS with PROT_NONE. -/
def mm_modify_type_tcs (addr : Nat) (l : List ema_t) : List ema_t :=
  rangeTransform addr (addr + SGX_PAGE_SIZE)
    (fun m => some { m with
      si_flags := SGX_EMA_PAGE_TYPE_TCS ||| SGX_EMA_PROT_NONE }) l

/-- Modelled from the spec: `sgx_mm_commit_data` (§4.4) — set the bits
of the committed pages, then run the permission-change loop to demote
to the target permissions. -/
def mm_commit_data (addr size prot : Nat) (l : List ema_t) : List ema_t :=
  mm_modify_permissions addr size prot (mm_commit addr size l)

/-- The public operations of §6 (the `register_pfhandler` call touches
only the handler fields and no list structure). -/
inductive MMOp where
  | alloc (sys : Bool) (addr size aflags sflags : Nat)
  | dealloc (addr size : Nat)
  | commit (addr size : Nat)
  | uncommit (addr size : Nat)
  | commit_data (addr size prot : Nat)
  | modify_permissions (addr size prot : Nat)
  | modify_type (addr : Nat)

/-- The two roots: RTS and user (§3 "Two roots"). -/
structure MMState where
  rts : List ema_t
  user : List ema_t

/-- Modelled from the spec: the dispatcher — route an allocation to the
root chosen by the SYSTEM flag, drive every other operation on the
root(s) covering its range (the range transforms leave uncovered roots
unchanged, so applying them to both roots subsumes each routing). -/
def mm_step : MMOp → MMState → MMState
  | .alloc true addr size af sf, st =>
    { st with rts := mm_alloc addr size af sf st.rts }
  | .alloc false addr size af sf, st =>
    { st with user := mm_alloc addr size af sf st.user }
  | .dealloc a n, st =>
    { rts := mm_dealloc a n st.rts, user := mm_dealloc a n st.user }
  | .commit a n, st =>
    { rts := mm_commit a n st.rts, user := mm_commit a n st.user }
  | .uncommit a n, st =>
    { rts := mm_uncommit a n st.rts, user := mm_uncommit a n st.user }
  | .commit_data a n p, st =>
    { rts := mm_commit_data a n p st.rts
      user := mm_commit_data a n p st.user }
  | .modify_permissions a n p, st =>
    { rts := mm_modify_permissions a n p st.rts
      user := mm_modify_permissions a n p st.user }
  | .modify_type a, st =>
    { rts := mm_modify_type_tcs a st.rts
      user := mm_modify_type_tcs a st.user }

theorem mem_insertEMA (n x : ema_t) :
    ∀ l : List ema_t, x ∈ insertEMA n l → x = n ∨ x ∈ l := by
  intro l
  induction l with
  | nil =>
    intro h
    simpa [insertEMA] using h
  | cons e r ih =>
    intro h
    unfold insertEMA at h
    by_cases hc : ema_end n ≤ e.start_addr
    · rw [if_pos hc] at h
      rcases List.mem_cons.mp h with h1 | h2
      · exact Or.inl h1
      · exact Or.inr h2
    · rw [if_neg hc] at h
      rcases List.mem_cons.mp h with h1 | h2
      · exact Or.inr (h1 ▸ List.mem_cons_self e r)
      · rcases ih h2 with h3 | h4
        · exact Or.inl h3
        · exact Or.inr (List.mem_cons_of_mem e h4)

/-- Inserting a node whose range is disjoint from every listed node, at
the position `insertEMA` picks, preserves the invariant. -/
theorem emaInv_insertEMA (n : ema_t) (hn : 0 < n.size) :
    ∀ l : List ema_t, emaInv l → (∀ e ∈ l, Sep e n ∨ Sep n e) →
      emaInv (insertEMA n l) := by
  intro l
  induction l with
  | nil =>
    intro _ _
    refine ⟨by simp [insertEMA], ?_⟩
    intro x hx
    simp only [insertEMA, List.mem_singleton] at hx
    rw [hx]
    exact hn
  | cons e r ih =>
    intro hinv hfree
    have hinvr : emaInv r := ⟨(List.pairwise_cons.mp hinv.1).2,
      fun x hx => hinv.2 x (List.mem_cons_of_mem e hx)⟩
    have hsepe : ∀ b ∈ r, Sep e b := (List.pairwise_cons.mp hinv.1).1
    unfold insertEMA
    by_cases hc : ema_end n ≤ e.start_addr
    · rw [if_pos hc]
      constructor
      · rw [List.pairwise_cons]
        refine ⟨?_, hinv.1⟩
        intro b hb
        rcases List.mem_cons.mp hb with rfl | hbr
        · exact hc
        · have hseb := hsepe b hbr
          unfold Sep ema_end at *
          omega
      · intro x hx
        rcases List.mem_cons.mp hx with rfl | hx2
        · exact hn
        · exact hinv.2 x hx2
    · rw [if_neg hc]
      have hen : Sep e n := by
        rcases hfree e (List.mem_cons_self e r) with h1 | h1
        · exact h1
        · exact absurd h1 hc
      have hih := ih hinvr (fun b hb => hfree b (List.mem_cons_of_mem e hb))
      constructor
      · rw [List.pairwise_cons]
        refine ⟨?_, hih.1⟩
        intro b hb
        rcases mem_insertEMA n b r hb with rfl | hbr
        · exact hen
        · exact hsepe b hbr
      · intro x hx
        rcases List.mem_cons.mp hx with h1 | hx2
        · rw [h1]
          exact hinv.2 e (List.mem_cons_self e r)
        · rcases mem_insertEMA n x r hx2 with h1 | hxr
          · rw [h1]
            exact hn
          · exact hinvr.2 x hxr

/-- A per-node update that keeps every node's range preserves the
invariant (commit / uncommit / commit-data bitmap updates). -/
theorem emaInv_map (g : ema_t → ema_t)
    (hg : ∀ e, (g e).start_addr = e.start_addr ∧ (g e).size = e.size)
    (l : List ema_t) (h : emaInv l) : emaInv (l.map g) := by
  constructor
  · rw [List.pairwise_map]
    refine h.1.imp ?_
    intro a b hab
    unfold Sep ema_end at *
    rw [(hg a).1, (hg a).2, (hg b).1]
    exact hab
  · intro x hx
    rcases List.mem_map.mp hx with ⟨e, he, rfl⟩
    rw [(hg e).2]
    exact h.2 e he

/-- Every piece the range trim produces stays within the node's range
and has positive size. -/
theorem rtPieces_bounds (s t : Nat) (mid : ema_t → Option ema_t)
    (hmid : ∀ m x, mid m = some x →
      x.start_addr = m.start_addr ∧ x.size = m.size)
    (e : ema_t) (he : 0 < e.size) (hst : s < t) :
    ∀ x ∈ rtPieces s t mid e,
      e.start_addr ≤ x.start_addr ∧ ema_end x ≤ ema_end e ∧ 0 < x.size := by
  intro x hx
  unfold rtPieces at hx
  by_cases hd : ema_end e ≤ s ∨ t ≤ e.start_addr
  · rw [if_pos hd] at hx
    simp only [List.mem_singleton] at hx
    subst hx
    exact ⟨le_refl _, le_refl _, he⟩
  · rw [if_neg hd] at hx
    push_neg at hd
    simp only [List.mem_append] at hx
    rcases hx with (hx | hx) | hx
    · by_cases hL : e.start_addr < max s e.start_addr
      · rw [if_pos hL] at hx
        simp only [List.mem_singleton] at hx
        subst hx
        unfold ema_end at hd ⊢
        dsimp only
        omega
      · rw [if_neg hL] at hx
        simp at hx
    · rcases ho : mid { e with
          start_addr := max s e.start_addr
          size := min t (ema_end e) - max s e.start_addr } with _ | y
      · rw [ho] at hx
        simp at hx
      · rw [ho] at hx
        simp only [Option.toList_some, List.mem_singleton] at hx
        subst hx
        rcases hmid _ x ho with ⟨hy1, hy2⟩
        dsimp only at hy1 hy2
        unfold ema_end at hd hy2 ⊢
        rw [hy1, hy2]
        omega
    · by_cases hR : min t (ema_end e) < ema_end e
      · rw [if_pos hR] at hx
        simp only [List.mem_singleton] at hx
        subst hx
        unfold ema_end at hd hR ⊢
        dsimp only
        omega
      · rw [if_neg hR] at hx
        simp at hx

/-- Three blocks of nodes, consecutive in bounds, chain into one
ordered list. -/
theorem pairwise_three_blocks (A B C : List ema_t) (LO HI : Nat)
    (hA : ∀ a ∈ A, ema_end a ≤ LO)
    (hB : ∀ b ∈ B, LO ≤ b.start_addr ∧ ema_end b ≤ HI)
    (hC : ∀ c ∈ C, HI ≤ c.start_addr) (hLH : LO ≤ HI)
    (hpa : A.Pairwise Sep) (hpb : B.Pairwise Sep) (hpc : C.Pairwise Sep) :
    (A ++ B ++ C).Pairwise Sep := by
  rw [List.append_assoc, List.pairwise_append]
  refine ⟨hpa, ?_, ?_⟩
  · rw [List.pairwise_append]
    refine ⟨hpb, hpc, ?_⟩
    intro b hb c hc
    have h1 := (hB b hb).2
    have h2 := hC c hc
    unfold Sep
    omega
  · intro a ha x hx
    have h1 := hA a ha
    rcases List.mem_append.mp hx with hxb | hxc
    · have h2 := (hB x hxb).1
      unfold Sep
      omega
    · have h2 := hC x hxc
      unfold Sep
      omega

/-- The pieces of one node are themselves in order. -/
theorem rtPieces_pairwise (s t : Nat) (hst : s < t)
    (mid : ema_t → Option ema_t)
    (hmid : ∀ m x, mid m = some x →
      x.start_addr = m.start_addr ∧ x.size = m.size)
    (e : ema_t) : (rtPieces s t mid e).Pairwise Sep := by
  unfold rtPieces
  by_cases hd : ema_end e ≤ s ∨ t ≤ e.start_addr
  · rw [if_pos hd]
    simp
  · rw [if_neg hd]
    push_neg at hd
    apply pairwise_three_blocks _ _ _ (max s e.start_addr)
      (min t (ema_end e))
    · intro a ha
      by_cases hL : e.start_addr < max s e.start_addr
      · rw [if_pos hL] at ha
        simp only [List.mem_singleton] at ha
        subst ha
        unfold ema_end
        dsimp only
        omega
      · rw [if_neg hL] at ha
        simp at ha
    · intro b hb
      rcases ho : mid { e with
          start_addr := max s e.start_addr
          size := min t (ema_end e) - max s e.start_addr } with _ | y
      · rw [ho] at hb
        simp at hb
      · rw [ho] at hb
        simp only [Option.toList_some, List.mem_singleton] at hb
        subst hb
        rcases hmid _ b ho with ⟨hy1, hy2⟩
        dsimp only at hy1 hy2
        unfold ema_end at hd hy2 ⊢
        rw [hy1, hy2]
        omega
    · intro c hc
      by_cases hR : min t (ema_end e) < ema_end e
      · rw [if_pos hR] at hc
        simp only [List.mem_singleton] at hc
        subst hc
        dsimp only
        omega
      · rw [if_neg hR] at hc
        simp at hc
    · unfold ema_end at hd ⊢
      omega
    · split <;> simp
    · rcases ho : mid { e with
          start_addr := max s e.start_addr
          size := min t (ema_end e) - max s e.start_addr } with _ | y <;>
        simp [ho]
    · split <;> simp

/-- Trimming the covered nodes to a nonempty range (splitting, possibly
dropping or reflagging the middles) preserves the invariant. -/
theorem emaInv_rangeTransform (s t : Nat) (hst : s < t)
    (mid : ema_t → Option ema_t)
    (hmid : ∀ m x, mid m = some x →
      x.start_addr = m.start_addr ∧ x.size = m.size)
    (l : List ema_t) (h : emaInv l) : emaInv (rangeTransform s t mid l) := by
  unfold rangeTransform
  constructor
  · rw [List.pairwise_flatMap]
    constructor
    · intro a _
      exact rtPieces_pairwise s t hst mid hmid a
    · refine h.1.imp_of_mem ?_
      intro a b ha hb hab x hx y hy
      have hxb := rtPieces_bounds s t mid hmid a (h.2 a ha) hst x hx
      have hyb := rtPieces_bounds s t mid hmid b (h.2 b hb) hst y hy
      unfold Sep ema_end at *
      omega
  · intro x hx
    rcases List.mem_flatMap.mp hx with ⟨e, he, hxe⟩
    exact (rtPieces_bounds s t mid hmid e (h.2 e he) hst x hxe).2.2

theorem emaInv_mm_alloc (addr size af sf : Nat) (l : List ema_t)
    (h : emaInv l) : emaInv (mm_alloc addr size af sf l) := by
  unfold mm_alloc
  by_cases hv : size = 0 ∨ size % SGX_PAGE_SIZE ≠ 0 ∨
      addr % SGX_PAGE_SIZE ≠ 0
  · rw [if_pos hv]
    exact h
  · rw [if_neg hv]
    by_cases hf : (l.all (fun e =>
        decide (ema_end e ≤ addr) ||
          decide (addr + size ≤ e.start_addr))) = true
    · rw [if_pos hf]
      apply emaInv_insertEMA _ ?_ l h ?_
      · push_neg at hv
        dsimp only
        exact Nat.pos_of_ne_zero hv.1
      · intro e he
        have hfe := (List.all_eq_true.mp hf) e he
        simp only [Bool.or_eq_true, decide_eq_true_eq] at hfe
        unfold Sep ema_end
        dsimp only
        rcases hfe with hcase | hcase
        · exact Or.inl (by unfold ema_end at hcase; exact hcase)
        · exact Or.inr hcase
    · rw [if_neg hf]
      exact h

theorem emaInv_mm_commit (addr size : Nat) (l : List ema_t)
    (h : emaInv l) : emaInv (mm_commit addr size l) := by
  unfold mm_commit
  apply emaInv_map _ ?_ l h
  intro e
  by_cases hc : ema_end e ≤ addr ∨ addr + size ≤ e.start_addr <;>
    simp [hc]

theorem emaInv_mm_uncommit (addr size : Nat) (l : List ema_t)
    (h : emaInv l) : emaInv (mm_uncommit addr size l) := by
  unfold mm_uncommit
  apply emaInv_map _ ?_ l h
  intro e
  by_cases hc : ema_end e ≤ addr ∨ addr + size ≤ e.start_addr <;>
    simp [hc]

theorem emaInv_mm_dealloc (addr size : Nat) (l : List ema_t)
    (h : emaInv l) : emaInv (mm_dealloc addr size l) := by
  unfold mm_dealloc
  by_cases hz : size = 0
  · rw [if_pos hz]
    exact h
  · rw [if_neg hz]
    apply emaInv_rangeTransform _ _ (by omega) _ ?_ l h
    intro m x hmx
    simp at hmx

theorem emaInv_mm_modify_permissions (addr size prot : Nat)
    (l : List ema_t) (h : emaInv l) :
    emaInv (mm_modify_permissions addr size prot l) := by
  unfold mm_modify_permissions
  by_cases hz : size = 0
  · rw [if_pos hz]
    exact h
  · rw [if_neg hz]
    apply emaInv_rangeTransform _ _ (by omega) _ ?_ l h
    intro m x hmx
    simp only [Option.some_inj] at hmx
    subst hmx
    exact ⟨rfl, rfl⟩

theorem emaInv_mm_modify_type_tcs (addr : Nat) (l : List ema_t)
    (h : emaInv l) : emaInv (mm_modify_type_tcs addr l) := by
  unfold mm_modify_type_tcs
  apply emaInv_rangeTransform _ _ ?_ _ ?_ l h
  · have hP : (0 : Nat) < SGX_PAGE_SIZE := by decide
    omega
  · intro m x hmx
    simp only [Option.some_inj] at hmx
    subst hmx
    exact ⟨rfl, rfl⟩

theorem emaInv_mm_commit_data (addr size prot : Nat) (l : List ema_t)
    (h : emaInv l) : emaInv (mm_commit_data addr size prot l) :=
  emaInv_mm_modify_permissions addr size prot _
    (emaInv_mm_commit addr size l h)

/-- The claim's phrasing of the invariant follows from `emaInv`:
symmetric pairwise non-overlap and strictly increasing starts. -/
theorem emaInv_nonoverlap (l : List ema_t) (h : emaInv l) :
    (∀ a ∈ l, ∀ b ∈ l, a ≠ b →
      ema_end a ≤ b.start_addr ∨ ema_end b ≤ a.start_addr) ∧
    l.Pairwise (fun a b => a.start_addr < b.start_addr) := by
  constructor
  · have hsym : l.Pairwise (fun a b =>
        ema_end a ≤ b.start_addr ∨ ema_end b ≤ a.start_addr) :=
      h.1.imp (fun hab => Or.inl hab)
    intro a ha b hb hne
    exact hsym.forall (fun x y hxy => hxy.symm) ha hb hne
  · refine h.1.imp_of_mem ?_
    intro a b ha hb hab
    have hsz := h.2 a ha
    unfold Sep ema_end at hab
    omega

/-- C9: after every public EMM operation returns (alloc, dealloc,
commit, uncommit, commit_data, modify_permissions, modify_type), each
of the two EMA lists (RTS root and user root) traverses in strictly
increasing start address and no two EMAs on the same root overlap: for
any two distinct EMAs `a` and `b` on one root,
`a.end ≤ b.start ∨ b.end ≤ a.start`.  (Invariant preservation: the
hypotheses say the invariant held when the operation was invoked; both
lists are re-established in the conclusion, so the property holds after
any sequence of public operations from an ordered initial state.) -/
theorem c9_public_ops_keep_lists_sorted_nonoverlapping (op : MMOp)
    (st : MMState) (h1 : emaInv st.rts) (h2 : emaInv st.user) :
    emaInv (mm_step op st).rts ∧ emaInv (mm_step op st).user ∧
    (∀ a ∈ (mm_step op st).rts, ∀ b ∈ (mm_step op st).rts, a ≠ b →
      ema_end a ≤ b.start_addr ∨ ema_end b ≤ a.start_addr) ∧
    (∀ a ∈ (mm_step op st).user, ∀ b ∈ (mm_step op st).user, a ≠ b →
      ema_end a ≤ b.start_addr ∨ ema_end b ≤ a.start_addr) ∧
    (mm_step op st).rts.Pairwise (fun a b => a.start_addr < b.start_addr) ∧
    (mm_step op st).user.Pairwise
      (fun a b => a.start_addr < b.start_addr) := by
  have hmain : emaInv (mm_step op st).rts ∧ emaInv (mm_step op st).user := by
    cases op with
    | alloc sys addr size af sf =>
      cases sys
      · exact ⟨h1, emaInv_mm_alloc addr size af sf st.user h2⟩
      · exact ⟨emaInv_mm_alloc addr size af sf st.rts h1, h2⟩
    | dealloc a n =>
      exact ⟨emaInv_mm_dealloc a n st.rts h1,
        emaInv_mm_dealloc a n st.user h2⟩
    | commit a n =>
      exact ⟨emaInv_mm_commit a n st.rts h1, emaInv_mm_commit a n st.user h2⟩
    | uncommit a n =>
      exact ⟨emaInv_mm_uncommit a n st.rts h1,
        emaInv_mm_uncommit a n st.user h2⟩
    | commit_data a n p =>
      exact ⟨emaInv_mm_commit_data a n p st.rts h1,
        emaInv_mm_commit_data a n p st.user h2⟩
    | modify_permissions a n p =>
      exact ⟨emaInv_mm_modify_permissions a n p st.rts h1,
        emaInv_mm_modify_permissions a n p st.user h2⟩
    | modify_type a =>
      exact ⟨emaInv_mm_modify_type_tcs a st.rts h1,
        emaInv_mm_modify_type_tcs a st.user h2⟩
  exact ⟨hmain.1, hmain.2, (emaInv_nonoverlap _ hmain.1).1,
    (emaInv_nonoverlap _ hmain.2).1, (emaInv_nonoverlap _ hmain.1).2,
    (emaInv_nonoverlap _ hmain.2).2⟩

/-- An ordered two-node user root for the C9 witness. -/
def c9_st : MMState :=
  { rts := [c4_ema]
    user := [c7_ema, { c7_ema with start_addr := 0x4000 }] }

/-- Witness for C9: an allocation at `0x6000` into the user root of a
state whose roots hold ordered nodes. -/
theorem c9_witness :
    emaInv (mm_step (.alloc false 0x6000 0x1000 SGX_EMA_COMMIT_ON_DEMAND
        (SGX_EMA_PAGE_TYPE_REG ||| SGX_EMA_PROT_READ_WRITE)) c9_st).rts ∧
    emaInv (mm_step (.alloc false 0x6000 0x1000 SGX_EMA_COMMIT_ON_DEMAND
        (SGX_EMA_PAGE_TYPE_REG ||| SGX_EMA_PROT_READ_WRITE)) c9_st).user ∧
    (∀ a ∈ (mm_step (.alloc false 0x6000 0x1000 SGX_EMA_COMMIT_ON_DEMAND
        (SGX_EMA_PAGE_TYPE_REG ||| SGX_EMA_PROT_READ_WRITE)) c9_st).rts,
      ∀ b ∈ (mm_step (.alloc false 0x6000 0x1000 SGX_EMA_COMMIT_ON_DEMAND
        (SGX_EMA_PAGE_TYPE_REG ||| SGX_EMA_PROT_READ_WRITE)) c9_st).rts,
      a ≠ b → ema_end a ≤ b.start_addr ∨ ema_end b ≤ a.start_addr) ∧
    (∀ a ∈ (mm_step (.alloc false 0x6000 0x1000 SGX_EMA_COMMIT_ON_DEMAND
        (SGX_EMA_PAGE_TYPE_REG ||| SGX_EMA_PROT_READ_WRITE)) c9_st).user,
      ∀ b ∈ (mm_step (.alloc false 0x6000 0x1000 SGX_EMA_COMMIT_ON_DEMAND
        (SGX_EMA_PAGE_TYPE_REG ||| SGX_EMA_PROT_READ_WRITE)) c9_st).user,
      a ≠ b → ema_end a ≤ b.start_addr ∨ ema_end b ≤ a.start_addr) ∧
    (mm_step (.alloc false 0x6000 0x1000 SGX_EMA_COMMIT_ON_DEMAND
        (SGX_EMA_PAGE_TYPE_REG ||| SGX_EMA_PROT_READ_WRITE)) c9_st).rts.Pairwise
      (fun a b => a.start_addr < b.start_addr) ∧
    (mm_step (.alloc false 0x6000 0x1000 SGX_EMA_COMMIT_ON_DEMAND
        (SGX_EMA_PAGE_TYPE_REG ||| SGX_EMA_PROT_READ_WRITE))
        c9_st).user.Pairwise (fun a b => a.start_addr < b.start_addr) :=
  c9_public_ops_keep_lists_sorted_nonoverlapping
    (.alloc false 0x6000 0x1000 SGX_EMA_COMMIT_ON_DEMAND
      (SGX_EMA_PAGE_TYPE_REG ||| SGX_EMA_PROT_READ_WRITE)) c9_st
    (by constructor <;> decide) (by constructor <;> decide)

end SgxEmm
